import Mathlib

/-!
# Verification of the mandelbrust fractal core

A shallow embedding of the repository's core (src/types.rs, src/mandelbrot.rs)
together with proofs about the claims of its specification.

Modelling conventions:

* Rust `f64` arithmetic is modelled by exact rational arithmetic (`ℚ`).
  Decimal literals of the source (`0.28`, `0.7`, `0.5`, `0.25`, `0.0625`)
  are taken at their exact decimal value.  The source's comparison
  `z.norm() < 2.0` (with `norm = sqrt (re² + im²)`) is modelled by the
  equivalent exact comparison `normSq z < 4`, and the cardioid test
  `re ≤ p - 2 p² + 0.25` with `p = sqrt q` is modelled by its exact
  sqrt-free equivalent (`re + 2 q - 1/4 ≤ 0 ∨ (re + 2 q - 1/4)² ≤ q`);
  the equivalence with the `Real.sqrt` formulation is proved below
  (`in_set_iff_real`).
* Rust machine integers are modelled by `Nat`/`Int`; the `as i32` casts of
  the source (`height as i32`, `width as i32`, `x as i32`, and the
  saturating `f64 as i32` casts) are modelled explicitly by `toI32`,
  `f64ToI32` and `i32wrap` below, because they overflow for large inputs
  and several claims quantify over all image sizes.
* Fallible operations (the `self.data[index]` panics on an out-of-range
  index) are modelled in `Option`, `none` standing for a panic.
-/

/-! ## Definitions: the embedded program -/

/-- Complex numbers with exact rational components, standing for the
`num::complex::Complex<f64>` values of the source. -/
structure Cx where
  re : ℚ
  im : ℚ
deriving DecidableEq

instance : Add Cx := ⟨fun a b => ⟨a.re + b.re, a.im + b.im⟩⟩

/-- Complex multiplication, as computed by the `num` crate:
`(a+bi)(c+di) = (ac - bd) + (ad + bc) i`. -/
instance : Mul Cx := ⟨fun a b => ⟨a.re * b.re - a.im * b.im, a.re * b.im + a.im * b.re⟩⟩

/-- Squared absolute value.  The source compares `z.norm() < 2.0`; since
`norm = sqrt normSq` and both sides are nonnegative this is exactly
`normSq z < 4` in exact arithmetic. -/
def Cx.normSq (z : Cx) : ℚ := z.re * z.re + z.im * z.im

/-- `fn in_set(z: &Complex<f64>) -> bool` of src/mandelbrot.rs.
The source computes `p = ((z.re - 0.25)^2 + z.im^2).sqrt()` and tests
`z.re <= p - 2.0 * p^2 + 0.25`; writing `q = (z.re - 0.25)^2 + z.im^2`
(so `p = sqrt q`, `p² = q`), that test is `z.re + 2q - 1/4 ≤ sqrt q`,
which over the reals is equivalent to the sqrt-free condition used here
(proved in `in_set_iff_real`).  The second branch is the period-2 bulb
test `(z.re + 1)^2 + z.im^2 <= 0.0625` verbatim. -/
def in_set (z : Cx) : Bool :=
  if z.re + 2 * ((z.re - 0.25) ^ 2 + z.im ^ 2) - 0.25 ≤ 0 ∨
      (z.re + 2 * ((z.re - 0.25) ^ 2 + z.im ^ 2) - 0.25) ^ 2 ≤
        (z.re - 0.25) ^ 2 + z.im ^ 2 then true
  else if (z.re + 1) ^ 2 + z.im ^ 2 ≤ 0.0625 then true
  else false

/-- The escape loop of `mandel`, with an explicit fuel argument so that the
recursion is structural (the source's `while` loop runs at most
`max_iter` times; `mandel` passes `max_iter` as fuel, which suffices:
the invariant lemmas below never hit the fuel-exhaustion branch except
when the loop is already done).  Each pass of the source loop tests
`next.norm() < 2.0 && iter < max_iter`, then sets `next = next * next + c`
and `iter += 1`. -/
def mandelGo (c : Cx) (maxIter : Nat) : Nat → Nat → Cx → Nat
  | 0, iter, _ => iter
  | fuel + 1, iter, next =>
    if Cx.normSq next < 4 ∧ iter < maxIter then
      mandelGo c maxIter fuel (iter + 1) (next * next + c)
    else iter

/-- `pub fn mandel(c: &Complex<f64>, max_iter: u32) -> u32` of
src/mandelbrot.rs. -/
def mandel (c : Cx) (maxIter : Nat) : Nat :=
  if in_set c then maxIter
  else mandelGo c maxIter maxIter 0 ⟨0, 0⟩

/-- The orbit `z₀ = 0`, `z_{k+1} = z_k² + c` of the escape-time recurrence. -/
def orbit (c : Cx) : Nat → Cx
  | 0 => ⟨0, 0⟩
  | n + 1 => orbit c n * orbit c n + c

/-- Rust `u32 as i32`: reinterpretation of the low 32 bits as a signed
value (wrapping for values `≥ 2^31`). -/
def toI32 (n : Nat) : Int :=
  if n % 2 ^ 32 < 2 ^ 31 then ((n % 2 ^ 32 : Nat) : Int)
  else ((n % 2 ^ 32 : Nat) : Int) - 2 ^ 32

/-- Wrap an integer into the `i32` range, modelling Rust release-mode
wrapping of `i32` arithmetic. -/
def i32wrap (n : Int) : Int := (n + 2 ^ 31) % 2 ^ 32 - 2 ^ 31

/-- Truncation of a rational toward zero, as the `f64` → integer `as`
casts of Rust do before saturating. -/
def ratTrunc (q : ℚ) : Int := if 0 ≤ q then ⌊q⌋ else ⌈q⌉

/-- Rust `f64 as i32`: truncate toward zero and saturate to the `i32`
range.  (`NaN` maps to 0, but `ℚ` has no `NaN`; the only division in the
transform is by `scale`, which is nonzero for the transforms the claims
quantify over.) -/
def f64ToI32 (q : ℚ) : Int := max (-(2 ^ 31)) (min (2 ^ 31 - 1) (ratTrunc q))

/-- `pub struct Transform` of src/types.rs.  `window_size.1` is the Rust
`window_size.0` (width) and `window_size.2` the Rust `window_size.1`
(height). -/
structure Transform where
  x : ℚ
  y : ℚ
  scale : ℚ
  window_size : Nat × Nat
deriving DecidableEq

/-- `Transform::reset`. -/
def Transform.reset (t : Transform) : Transform :=
  { t with
    scale := (t.window_size.1 : ℚ) * 0.28
    x := (t.window_size.1 : ℚ) * 0.7
    y := (t.window_size.2 : ℚ) * 0.5 }

/-- `Transform::new`. -/
def Transform.new (window_size : Nat × Nat) : Transform :=
  Transform.reset { scale := 1.0, x := 0.0, y := 0.0, window_size := window_size }

/-- `Transform::pos_to_complex`.  The arguments are `i32` pixel
coordinates. -/
def Transform.pos_to_complex (t : Transform) (x y : Int) : Cx :=
  ⟨((x : ℚ) - t.x) / t.scale,
   (((t.window_size.2 : ℚ) - (y : ℚ)) - t.y) / t.scale⟩

/-- `Transform::_complex_to_point`.  The source computes
`(z.re * scale + x) as i32` and `-(z.im * scale + y) as i32 + window_size.1 as i32`;
unary minus binds tighter than `as`, so the second coordinate casts the
negated float (`f64 → i32` casts saturate) and then adds
`window_size.1 as i32`, an `i32` addition that wraps in release mode,
hence the `i32wrap`. -/
def Transform.complex_to_point (t : Transform) (z : Cx) : Int × Int :=
  (f64ToI32 (z.re * t.scale + t.x),
   i32wrap (f64ToI32 (-(z.im * t.scale + t.y)) + toI32 t.window_size.2))

/-- `Transform::zoom` (the `println!` logging is omitted). -/
def Transform.zoom (t : Transform) (factor : ℚ) : Transform :=
  let z := t.pos_to_complex (toI32 (t.window_size.1 / 2)) (toI32 (t.window_size.2 / 2))
  let scale := t.scale * factor
  { t with
    scale := scale
    x := (t.window_size.1 : ℚ) / 2 - z.re * scale
    y := (t.window_size.2 : ℚ) / 2 - z.im * scale }

/-- `Transform::zoom_factor`. -/
def Transform.zoom_factor (t : Transform) : ℚ :=
  t.scale / ((t.window_size.1 : ℚ) * 0.28)

/-- `Transform::center_at`. -/
def Transform.center_at (t : Transform) (z : Cx) : Transform :=
  { t with
    x := (t.window_size.1 : ℚ) / 2 - z.re * t.scale
    y := (t.window_size.2 : ℚ) / 2 - z.im * t.scale }

/-- `pub struct MandelPixel` of src/types.rs. -/
structure MandelPixel where
  x : Int
  y : Int
  iterations : Nat
  iterations_equalized : Nat
deriving DecidableEq

/-- `MandelPixel::new`. -/
def MandelPixel.new (x y : Int) : MandelPixel :=
  { x := x, y := y, iterations := 0, iterations_equalized := 0 }

/-- `pub struct MandelImage` of src/types.rs. -/
structure MandelImage where
  width : Nat
  height : Nat
  max_iterations : Nat
  data : List MandelPixel
deriving DecidableEq

/-- The pixel list built by `MandelImage::new`: row-major, `x` and `y`
fields set from the loop counters via `as i32`. -/
def mkData (width height : Nat) : List MandelPixel :=
  (List.range height).flatMap fun y =>
    (List.range width).map fun x => MandelPixel.new (toI32 x) (toI32 y)

/-- `MandelImage::new` (the timing/logging is omitted). -/
def MandelImage.new (width height maxIterations : Nat) : MandelImage :=
  { width := width, height := height, max_iterations := maxIterations,
    data := mkData width height }

/-- Transforms reachable from `Transform::new` by any sequence of
`zoom` (with positive factor), `center_at` and `reset` calls. -/
inductive Reachable : Transform → Prop where
  | new : ∀ ws, Reachable (Transform.new ws)
  | zoom : ∀ t f, Reachable t → 0 < f → Reachable (t.zoom f)
  | center_at : ∀ t z, Reachable t → Reachable (t.center_at z)
  | reset : ∀ t, Reachable t → Reachable t.reset

/-- The integer pixel `(x, y)` lies inside the viewport.  The bounds
`x, y < 2^31` express that the pixel is representable as the `i32`
arguments `pos_to_complex` takes. -/
def insideViewport (t : Transform) (x y : Int) : Prop :=
  0 ≤ x ∧ x < (t.window_size.1 : Int) ∧ x < 2 ^ 31 ∧
  0 ≤ y ∧ y < (t.window_size.2 : Int) ∧ y < 2 ^ 31

/-- The row range handed to worker `t` by `generate_image_thread`:
`thread_count = 12`, `rows_per_thread = height as i32 / thread_count`
(`i32` division truncates toward zero, hence `Int.tdiv`), and worker `t`
gets `(rows_per_thread * t)..(rows_per_thread * (t + 1))`, the last
worker `(rows_per_thread * t)..height as i32`. -/
def rowsOf (height : Nat) (t : Nat) : Int × Int :=
  let h := toI32 height
  let rpt := Int.tdiv h 12
  if (t : Int) < 12 - 1 then (rpt * t, rpt * ((t : Int) + 1)) else (rpt * t, h)

/-- Membership of row `y` in a half-open row range. -/
def inRowRange (r : Int × Int) (y : Int) : Prop := r.1 ≤ y ∧ y < r.2

instance (r : Int × Int) (y : Int) : Decidable (inRowRange r y) := by
  unfold inRowRange
  infer_instance

/-- Rust `u32` subtraction `a - b` (wrapping in release mode; only ever
evaluated by the source with `1 ≤ a`, where it is plain subtraction). -/
def u32sub (a b : Nat) : Nat := (a + 2 ^ 32 - b % 2 ^ 32) % 2 ^ 32

/-- `f64::round`: round half away from zero (for nonnegative arguments
this agrees with Mathlib's round-half-up `round`). -/
def rustRound (q : ℚ) : Int := if 0 ≤ q then round q else -round (-q)

/-- Rust `f64 as u32` applied to a finite value: truncate (the argument
is already integral here, coming from `round`) and saturate into
`[0, 2^32 - 1]`. -/
def u32Sat (i : Int) : Nat := (min i (2 ^ 32 - 1)).toNat

/-- The body of the source's `hist` closure for `n < max_iterations`:
`((cdf[n] - cdf[0]) as f64 / nominator as f64 * (max_iterations - 1) as f64).round() as u32`
over exact arithmetic, with the IEEE `f64` special cases spelled out for
a zero denominator: `0.0/0.0` is `NaN` (and `NaN as u32 = 0`),
`±x/0.0` is `±∞`, `±∞ * 0.0` is `NaN`, `+∞ as u32` saturates to
`2^32 - 1` and `-∞ as u32` to 0. -/
def histVal (num den : Int) (m : Nat) : Nat :=
  if den = 0 then
    if num = 0 ∨ m = 0 then 0
    else if 0 < num then 2 ^ 32 - 1
    else 0
  else u32Sat (rustRound ((num : ℚ) / (den : ℚ) * (m : ℚ)))

/-- The `iteration_counts` loop of `equalize_image`:
`image.iter().for_each(|p| iteration_counts[p.iterations as usize] += 1)`,
with the indexing panic modelled in `Option` and the `+= 1` on the `i32`
counter wrapping in release mode, hence the `i32wrap`. -/
def tallyCounts (size : Nat) (data : List MandelPixel) : Option (List Int) :=
  data.foldlM
    (fun acc p =>
      (acc[p.iterations]?).map fun c => acc.set p.iterations (i32wrap (c + 1)))
    (List.replicate size (0 : Int))

/-- The `cumulative_distribution` loop of `equalize_image`:
`for i in 0..max_iterations { cdf[i] = last + iteration_counts[i]; last = cdf[i] }`
starting from `vec![0; size]` and `last = 0`.  Both indexings panic when
`i ≥ size` (possible when the `u32` computation of `size` wrapped),
hence the `Option` and the guard; the `i32` addition wraps in release
mode, hence the `i32wrap`. -/
def cdfBuild (counts : List Int) (maxIter size : Nat) : Option (List Int) :=
  ((List.range maxIter).foldlM
    (fun st i =>
      if i < size then
        some (st.1.set i (i32wrap (st.2 + counts.getD i 0)),
          i32wrap (st.2 + counts.getD i 0))
      else none)
    (List.replicate size (0 : Int), (0 : Int))).map Prod.fst

/-- `let sum: i32 = iteration_counts.iter().take(..).sum()`: the `i32`
`Sum` instance folds with `i32` addition, wrapping in release mode. -/
def i32sum (l : List Int) : Int := l.foldl (fun a c => i32wrap (a + c)) 0

/-- `pub fn equalize_image(image: &mut MandelImage)` of
src/mandelbrot.rs (timing/logging omitted).
`let size: usize = (image.max_iterations + 1) as usize` performs the
`+ 1` on the `u32` before the cast, so it wraps at `u32::MAX` (hence the
`% 2 ^ 32`).  The indexings through `p.iterations`, the indexings
`cdf[i]` of the cumulative-distribution loop, and the read `cdf[0]` in
the `nominator` line can all panic, hence the `Option`; the remaining
reads `cdf[n]`/`cdf[0]` inside `hist` are then in bounds (`hist` is only
applied to `n < size`, and `0 < size` once `cdf[0]` was read).  All
`i32` arithmetic (count increments, cumulative sums, `sum`, the two
subtractions) wraps in release mode, hence the `i32wrap`s. -/
def equalize_image (img : MandelImage) : Option MandelImage := do
  let size := (img.max_iterations + 1) % 2 ^ 32
  let counts ← tallyCounts size img.data
  let cdf ← cdfBuild counts img.max_iterations size
  let sum : Int := i32sum (counts.take img.max_iterations)
  let c0 ← cdf[0]?
  let nominator := i32wrap (sum - c0)
  let adjusted := (List.range size).map fun i =>
    if i = img.max_iterations then i
    else histVal (i32wrap (cdf.getD i 0 - c0)) nominator (u32sub img.max_iterations 1)
  let newData ← img.data.mapM fun p =>
    (adjusted[p.iterations]?).map fun v => { p with iterations_equalized := v }
  pure { img with data := newData }

/-- Specification-side helper (not the source embedding): the exact,
non-wrapping iteration-count table.  `tallyCounts_eq_countsOf` shows
that on an image with in-range raw values and fewer than `2^31` pixels
the source's wrapping fold computes exactly this. -/
def countsOf (img : MandelImage) : List Int :=
  img.data.foldl
    (fun acc p => acc.set p.iterations (acc.getD p.iterations 0 + 1))
    (List.replicate (img.max_iterations + 1) (0 : Int))

/-- Number of pixels with a given raw iteration value. -/
def countPix (data : List MandelPixel) (i : Nat) : Int :=
  ((data.filter fun p => p.iterations = i).length : Int)

/-- Sum of the first `n` iteration counts. -/
def prefixSum (counts : List Int) (n : Nat) : Int :=
  ((List.range n).map fun i => counts.getD i 0).sum

/-- Specification-side helper: the state of the cumulative-distribution
loop after `m` passes, in exact (non-wrapping) arithmetic.
`cdfBuild_eq_cdfFoldSt` shows the source's loop computes exactly this
whenever the prefix sums stay below `2^31`. -/
def cdfFoldSt (counts : List Int) (size m : Nat) : List Int × Int :=
  (List.range m).foldl
    (fun st i => (st.1.set i (st.2 + counts.getD i 0), st.2 + counts.getD i 0))
    (List.replicate size (0 : Int), (0 : Int))

/-- Specification-side helper: the exact value of the `nominator`
computed by `equalize_image`, `sum - cumulative_distribution[0]`. -/
def nominatorOf (img : MandelImage) : Int :=
  ((countsOf img).take img.max_iterations).sum -
    (cdfFoldSt (countsOf img) (img.max_iterations + 1) img.max_iterations).1.getD 0 0

/-- Specification-side helper: the exact value of the lookup table entry
`adjusted[n]` computed by `equalize_image`. -/
def adjustedFn (img : MandelImage) (n : Nat) : Nat :=
  if n = img.max_iterations then n
  else
    histVal
      ((cdfFoldSt (countsOf img) (img.max_iterations + 1) img.max_iterations).1.getD n 0 -
        (cdfFoldSt (countsOf img) (img.max_iterations + 1) img.max_iterations).1.getD 0 0)
      (nominatorOf img) (u32sub img.max_iterations 1)

/-- `pub fn _generate_image(transform: &Transform, image: &mut MandelImage)`
of src/mandelbrot.rs (timing/logging omitted): sets
`p.iterations = mandel(transform.pos_to_complex(p.x, p.y), max_iter)` on
every pixel, `max_iter` being read from `image.max_iterations` before
the loop. -/
def _generate_image (t : Transform) (img : MandelImage) : MandelImage :=
  { img with
    data := img.data.map fun p =>
      { p with iterations := mandel (t.pos_to_complex p.x p.y) img.max_iterations } }

/-- The `i32` range `s..e` as a list (empty when `e ≤ s`), as Rust's
`for y in rows` iterates it. -/
def intRangeList (s e : Int) : List Int :=
  (List.range (e - s).toNat).map fun i : Nat => s + (i : Int)

/-- The result vector one worker of `generate_image_thread` sends back:
`for y in rows { for x in 0..width { iterations.push(mandel(trans.pos_to_complex(x as i32, y), max_iter)) } }`. -/
def workerOut (t : Transform) (width maxIter : Nat) (r : Int × Int) : List Nat :=
  (intRangeList r.1 r.2).flatMap fun y =>
    (List.range width).map fun x => mandel (t.pos_to_complex (toI32 x) y) maxIter

/-- The write loop of `MandelImage::set_iterations`:
`self.data[start_index + index].iterations = *i`, with the out-of-bounds
panic modelled as `none`.  A negative `start_index` (possible after the
`i32` arithmetic wraps) sign-extends through `as usize` to an index
`≥ 2^63`, out of bounds for any buffer, hence also `none`. -/
def writeAll (data : List MandelPixel) (pos : Int) : List Nat → Option (List MandelPixel)
  | [] => some data
  | v :: rest =>
    if h : 0 ≤ pos ∧ pos.toNat < data.length then
      writeAll
        (data.set pos.toNat { data.get ⟨pos.toNat, h.2⟩ with iterations := v })
        (pos + 1) rest
    else none

/-- `MandelImage::set_iterations`: `start_index = (rows.start * self.width as i32) as usize`
(`i32` multiplication, wrapping in release mode), then the write loop. -/
def set_iterations (img : MandelImage) (rows : Int × Int) (iters : List Nat) :
    Option MandelImage :=
  (writeAll img.data (i32wrap (rows.1 * toI32 img.width)) iters).map
    fun d => { img with data := d }

/-- `pub fn generate_image_thread(transform: &Transform, image: &mut MandelImage)`
(timing/logging omitted).  Worker `k` computes `workerOut` over its row
range `rowsOf img.height k` (`width`, `height`, `max_iterations` are
read from `image` before the workers start); the receive loop then calls
`set_iterations` once per worker, in the order the channel delivers the
results — `order` is that arrival order, a permutation of `0..12` since
each worker sends exactly once and `recv` is called twelve times. -/
def generate_image_thread (t : Transform) (img : MandelImage) (order : List Nat) :
    Option MandelImage :=
  order.foldlM
    (fun cur k =>
      set_iterations cur (rowsOf img.height k)
        (workerOut t img.width img.max_iterations (rowsOf img.height k)))
    img

/-- The pixel list carries the row-major `x`/`y` fields `MandelImage::new`
sets: the pixel at index `k + j` (counting from offset `k`) has
`x = (index % width) as i32` and `y = (index / width) as i32`. -/
def pixelsWF (width : Nat) : Nat → List MandelPixel → Bool
  | _, [] => true
  | k, p :: rest =>
    (p.x == toI32 (k % width) && p.y == toI32 (k / width)) && pixelsWF width (k + 1) rest

/-- The intended final value of the pixel at flat index `j`: its
`iterations` replaced by the escape count of its own screen position
(row-major: `x = j % width`, `y = j / width`). -/
def targetAt (t : Transform) (img : MandelImage) (j : Nat) : Option MandelPixel :=
  (img.data[j]?).map fun p =>
    { p with
      iterations :=
        mandel (t.pos_to_complex (toI32 (j % img.width)) (toI32 (j / img.width)))
          img.max_iterations }

/-! ## Theorems -/

theorem cx_add_def (a b : Cx) : a + b = ⟨a.re + b.re, a.im + b.im⟩ := rfl

theorem cx_mul_def (a b : Cx) :
    a * b = ⟨a.re * b.re - a.im * b.im, a.re * b.im + a.im * b.re⟩ := rfl

theorem orbit_succ (c : Cx) (n : Nat) :
    orbit c (n + 1) = orbit c n * orbit c n + c := rfl

/-- The loop body never raises `iter` above `max_iter`. -/
theorem mandelGo_le (c : Cx) (M : Nat) :
    ∀ fuel iter z, iter ≤ M → mandelGo c M fuel iter z ≤ M := by
  intro fuel
  induction fuel with
  | zero => intro iter z h; simpa [mandelGo] using h
  | succ fuel ih =>
    intro iter z h
    rw [mandelGo]
    split
    · next hc => exact ih (iter + 1) _ hc.2
    · exact h

/-- With fuel at least `M - iter`, the loop invariant: starting at
`z = orbit c iter` with no escape before `iter`, the loop returns the
first escape index `n` (when `n ≤ M`). -/
theorem mandelGo_first_escape (c : Cx) (M n : Nat) (hnM : n ≤ M)
    (hesc : 4 ≤ (orbit c n).normSq)
    (hmin : ∀ k, k < n → (orbit c k).normSq < 4) :
    ∀ fuel iter, iter ≤ n → n - iter ≤ fuel →
      mandelGo c M fuel iter (orbit c iter) = n := by
  intro fuel
  induction fuel with
  | zero =>
    intro iter h1 h2
    have : iter = n := by omega
    subst this
    rfl
  | succ fuel ih =>
    intro iter h1 h2
    rcases eq_or_lt_of_le h1 with rfl | hlt
    · rw [mandelGo]
      rw [if_neg]
      intro hcon
      exact absurd hcon.1 (not_lt.mpr hesc)
    · rw [mandelGo, if_pos ⟨hmin iter hlt, lt_of_lt_of_le hlt hnM⟩,
        ← orbit_succ]
      exact ih (iter + 1) hlt (by omega)

/-- If no escape occurs up to index `M`, the loop runs to `iter = M`. -/
theorem mandelGo_no_escape (c : Cx) (M : Nat)
    (hall : ∀ n, n ≤ M → (orbit c n).normSq < 4) :
    ∀ fuel iter, M - iter ≤ fuel → iter ≤ M →
      mandelGo c M fuel iter (orbit c iter) = M := by
  intro fuel
  induction fuel with
  | zero =>
    intro iter h1 h2
    have : iter = M := by omega
    subst this
    rfl
  | succ fuel ih =>
    intro iter h1 h2
    rcases eq_or_lt_of_le h2 with rfl | hlt
    · rw [mandelGo]
      rw [if_neg]
      intro hcon
      exact absurd hcon.2 (lt_irrefl iter)
    · rw [mandelGo, if_pos ⟨hall iter h2, hlt⟩, ← orbit_succ]
      exact ih (iter + 1) (by omega) hlt

/-- C8: `mandel(c, max_iterations)` always terminates (it is a total
function here: the loop's `iter` rises by one per pass and the fuel
`max_iterations` therefore bounds the number of loop iterations, the
returned value being exactly the number of passes executed) and its
result lies in `[0, max_iterations]`. -/
theorem mandel_result_le (c : Cx) (M : Nat) : mandel c M ≤ M := by
  unfold mandel
  split
  · exact le_refl M
  · exact mandelGo_le c M M 0 ⟨0, 0⟩ (Nat.zero_le M)

/-- C2: for `c` rejected by the fast-path membership test, `mandel`
returns the least `n` with `|z_n| ≥ 2` (equivalently `normSq (z_n) ≥ 4`)
whenever that least `n` is at most `max_iterations`, and returns
`max_iterations` when no escape occurs within `max_iterations` steps. -/
theorem mandel_escape_time (c : Cx) (M : Nat) (hns : in_set c = false) :
    (∀ n, n ≤ M → 4 ≤ (orbit c n).normSq →
      (∀ k, k < n → (orbit c k).normSq < 4) → mandel c M = n) ∧
    ((∀ n, n ≤ M → (orbit c n).normSq < 4) → mandel c M = M) := by
  constructor
  · intro n hnM hesc hmin
    unfold mandel
    rw [if_neg (by simp [hns])]
    have h0 : orbit c 0 = (⟨0, 0⟩ : Cx) := rfl
    rw [← h0]
    exact mandelGo_first_escape c M n hnM hesc hmin M 0 (Nat.zero_le n) (by omega)
  · intro hall
    unfold mandel
    rw [if_neg (by simp [hns])]
    have h0 : orbit c 0 = (⟨0, 0⟩ : Cx) := rfl
    rw [← h0]
    exact mandelGo_no_escape c M hall M 0 (by omega) (Nat.zero_le M)

/-- Witness for C2 at concrete inputs: `c = 3` escapes first at `n = 1`
(`z₁ = 3`, `|z₁|² = 9 ≥ 4`), and `c = -1.9` does not escape within 3
steps, so `mandel` returns the budget. -/
theorem mandel_escape_time_witness :
    mandel ⟨3, 0⟩ 5 = 1 ∧ mandel ⟨-(19/10), 0⟩ 3 = 3 := by
  constructor
  · refine (mandel_escape_time ⟨3, 0⟩ 5 ?_).1 1 (by omega) ?_ ?_
    · unfold in_set
      norm_num
    · show (4:ℚ) ≤ (orbit ⟨3, 0⟩ 1).normSq
      norm_num [orbit, Cx.normSq, cx_mul_def, cx_add_def]
    · intro k hk
      interval_cases k
      norm_num [orbit, Cx.normSq]
  · refine (mandel_escape_time ⟨-(19/10), 0⟩ 3 ?_).2 ?_
    · unfold in_set
      norm_num
    · intro n hn
      interval_cases n <;>
        norm_num [orbit, Cx.normSq, cx_mul_def, cx_add_def]

/-- For nonnegative `q`, `a ≤ √q` is equivalent to the sqrt-free
condition used in the embedding of `in_set`. -/
theorem le_sqrt_iff_sqrt_free (a q : ℝ) (hq : 0 ≤ q) :
    a ≤ Real.sqrt q ↔ a ≤ 0 ∨ a ^ 2 ≤ q := by
  constructor
  · intro h
    rcases le_or_lt a 0 with h0 | h0
    · exact Or.inl h0
    · exact Or.inr ((Real.le_sqrt h0.le hq).mp h)
  · intro h
    rcases h with h | h
    · exact h.trans (Real.sqrt_nonneg q)
    · calc a ≤ |a| := le_abs_self a
        _ = Real.sqrt (a ^ 2) := (Real.sqrt_sq_eq_abs a).symm
        _ ≤ Real.sqrt q := Real.sqrt_le_sqrt h

/-- The boolean `in_set` computes exactly the disjunction of the source's
cardioid test (in its `Real.sqrt` formulation, with `p = √q`) and bulb
test. -/
theorem in_set_iff_real (z : Cx) :
    in_set z = true ↔
      ((z.re : ℝ) ≤ Real.sqrt (((z.re : ℝ) - 0.25) ^ 2 + (z.im : ℝ) ^ 2)
          - 2 * (((z.re : ℝ) - 0.25) ^ 2 + (z.im : ℝ) ^ 2) + 0.25
        ∨ ((z.re : ℝ) + 1) ^ 2 + (z.im : ℝ) ^ 2 ≤ 0.0625) := by
  have hq0 : (0 : ℝ) ≤ ((z.re : ℝ) - 0.25) ^ 2 + (z.im : ℝ) ^ 2 := by positivity
  have hb : ((z.re + 1) ^ 2 + z.im ^ 2 ≤ (0.0625 : ℚ)) ↔
      (((z.re : ℝ) + 1) ^ 2 + (z.im : ℝ) ^ 2 ≤ 0.0625) := by
    constructor
    · intro h
      have h' : (((z.re + 1) ^ 2 + z.im ^ 2 : ℚ) : ℝ) ≤ ((0.0625 : ℚ) : ℝ) := by
        exact_mod_cast h
      push_cast at h'
      convert h' using 2
    · intro h
      have h' : (((z.re + 1) ^ 2 + z.im ^ 2 : ℚ) : ℝ) ≤ ((0.0625 : ℚ) : ℝ) := by
        push_cast
        convert h using 2
      exact_mod_cast h'
  have hc : ((z.re + 2 * ((z.re - 0.25) ^ 2 + z.im ^ 2) - 0.25 ≤ 0 ∨
        (z.re + 2 * ((z.re - 0.25) ^ 2 + z.im ^ 2) - 0.25) ^ 2 ≤
          (z.re - 0.25) ^ 2 + z.im ^ 2)) ↔
      ((z.re : ℝ) ≤ Real.sqrt (((z.re : ℝ) - 0.25) ^ 2 + (z.im : ℝ) ^ 2)
        - 2 * (((z.re : ℝ) - 0.25) ^ 2 + (z.im : ℝ) ^ 2) + 0.25) := by
    rw [show ((z.re : ℝ) ≤ Real.sqrt (((z.re : ℝ) - 0.25) ^ 2 + (z.im : ℝ) ^ 2)
        - 2 * (((z.re : ℝ) - 0.25) ^ 2 + (z.im : ℝ) ^ 2) + 0.25) ↔
        ((z.re : ℝ) + 2 * (((z.re : ℝ) - 0.25) ^ 2 + (z.im : ℝ) ^ 2) - 0.25 ≤
          Real.sqrt (((z.re : ℝ) - 0.25) ^ 2 + (z.im : ℝ) ^ 2)) from
        ⟨fun h => by linarith, fun h => by linarith⟩]
    rw [le_sqrt_iff_sqrt_free _ _ hq0]
    constructor
    · intro h
      rcases h with h | h
      · refine Or.inl ?_
        have : ((z.re + 2 * ((z.re - 0.25) ^ 2 + z.im ^ 2) - 0.25 : ℚ) : ℝ) ≤ 0 := by
          exact_mod_cast h
        push_cast at this
        linarith
      · refine Or.inr ?_
        have : (((z.re + 2 * ((z.re - 0.25) ^ 2 + z.im ^ 2) - 0.25) ^ 2 : ℚ) : ℝ) ≤
            (((z.re - 0.25) ^ 2 + z.im ^ 2 : ℚ) : ℝ) := by
          exact_mod_cast h
        push_cast at this
        linarith
    · intro h
      rcases h with h | h
      · refine Or.inl ?_
        have : ((z.re + 2 * ((z.re - 0.25) ^ 2 + z.im ^ 2) - 0.25 : ℚ) : ℝ) ≤ 0 := by
          push_cast
          linarith
        exact_mod_cast this
      · refine Or.inr ?_
        have : (((z.re + 2 * ((z.re - 0.25) ^ 2 + z.im ^ 2) - 0.25) ^ 2 : ℚ) : ℝ) ≤
            (((z.re - 0.25) ^ 2 + z.im ^ 2 : ℚ) : ℝ) := by
          push_cast
          linarith
        exact_mod_cast this
  unfold in_set
  split
  · next hcond =>
    simp only [true_iff]
    exact Or.inl (hc.mp hcond)
  · next hcond =>
    split
    · next hbulb =>
      simp only [true_iff]
      exact Or.inr (hb.mp hbulb)
    · next hbulb =>
      simp only [Bool.false_eq_true, false_iff]
      intro h
      rcases h with h | h
      · exact hcond (hc.mpr h)
      · exact hbulb (hb.mpr h)

/-- C3: any `c` satisfying the closed-form cardioid membership test
(`re ≤ p - 2p² + 0.25` with `p = sqrt((re-0.25)² + im²)`) or the
period-2 bulb test (`(re+1)² + im² ≤ 0.0625`) makes `mandel` return
exactly `max_iterations` (for any positive `max_iterations`), through
the short-circuit branch, without running the escape iteration. -/
theorem mandel_fast_path (c : Cx) (M : Nat) (hM : 0 < M)
    (h : (c.re : ℝ) ≤ Real.sqrt (((c.re : ℝ) - 0.25) ^ 2 + (c.im : ℝ) ^ 2)
          - 2 * (((c.re : ℝ) - 0.25) ^ 2 + (c.im : ℝ) ^ 2) + 0.25
        ∨ ((c.re : ℝ) + 1) ^ 2 + (c.im : ℝ) ^ 2 ≤ 0.0625) :
    mandel c M = M := by
  have hs : in_set c = true := (in_set_iff_real c).mpr h
  simp [mandel, hs]

/-- Witness for C3: `c = -1` lies in the period-2 bulb, and
`mandel (-1) 7 = 7`. -/
theorem mandel_fast_path_witness : mandel ⟨-1, 0⟩ 7 = 7 := by
  refine mandel_fast_path ⟨-1, 0⟩ 7 (by omega) (Or.inr ?_)
  push_cast
  norm_num

/-- C9: a fresh `Transform` for viewport `(200, 300)` has zoom factor
exactly 1; after `zoom(2.0)`, `zoom(5.0)`, `zoom(0.5)` the zoom factor
is exactly 5. -/
theorem zoom_factor_sequence :
    (Transform.new (200, 300)).zoom_factor = 1 ∧
    ((((Transform.new (200, 300)).zoom 2).zoom 5).zoom 0.5).zoom_factor = 5 := by
  constructor
  · norm_num [Transform.new, Transform.reset, Transform.zoom_factor]
  · norm_num [Transform.new, Transform.reset, Transform.zoom, Transform.zoom_factor,
      Transform.pos_to_complex, toI32]

/-- Every reachable transform over a viewport of positive width has a
positive scale (so the divisions in `pos_to_complex` are by a nonzero
number). -/
theorem reachable_scale_pos {t : Transform} (ht : Reachable t)
    (hw : 0 < t.window_size.1) : 0 < t.scale := by
  induction ht with
  | new ws =>
    have : (0 : ℚ) < (ws.1 : ℚ) := by exact_mod_cast hw
    simpa [Transform.new, Transform.reset] using by positivity
  | zoom t f _ hf ih =>
    have := ih hw
    simpa [Transform.zoom] using mul_pos this hf
  | center_at t z _ ih => exact ih hw
  | reset t _ _ =>
    have : (0 : ℚ) < (t.window_size.1 : ℚ) := by exact_mod_cast hw
    simpa [Transform.reset] using by positivity

theorem ratTrunc_intCast (n : Int) : ratTrunc (n : ℚ) = n := by
  unfold ratTrunc
  split
  · exact Int.floor_intCast n
  · exact Int.ceil_intCast n

theorem f64ToI32_intCast (n : Int) (h1 : -(2 ^ 31) ≤ n) (h2 : n ≤ 2 ^ 31 - 1) :
    f64ToI32 (n : ℚ) = n := by
  simp only [f64ToI32, ratTrunc_intCast]
  omega

theorem toI32_of_lt (n : Nat) (h : n < 2 ^ 31) : toI32 n = (n : Int) := by
  simp only [toI32]
  rw [Nat.mod_eq_of_lt (by omega)]
  simp
  omega

theorem i32wrap_of_range (n : Int) (h1 : -(2 ^ 31) ≤ n) (h2 : n < 2 ^ 31) :
    i32wrap n = n := by
  simp only [i32wrap]
  omega

/-- C6 (amended): for every reachable transform whose viewport height is
below `2^31` and every pixel inside the viewport,
`_complex_to_point (pos_to_complex (x, y))` differs from `(x, y)` by at
most one in each coordinate (in exact arithmetic the round trip is in
fact exact). -/
theorem roundtrip_within_one (t : Transform) (ht : Reachable t) (x y : Int)
    (hin : insideViewport t x y) (hh : t.window_size.2 < 2 ^ 31) :
    ((t.complex_to_point (t.pos_to_complex x y)).1 - x).natAbs ≤ 1 ∧
    ((t.complex_to_point (t.pos_to_complex x y)).2 - y).natAbs ≤ 1 := by
  obtain ⟨hx0, hxw, hx31, hy0, hyh, hy31⟩ := hin
  have hw : 0 < t.window_size.1 := by
    by_contra h
    have : t.window_size.1 = 0 := by omega
    rw [this] at hxw
    simp at hxw
    omega
  have hs : t.scale ≠ 0 := ne_of_gt (reachable_scale_pos ht hw)
  have hhq : (t.window_size.2 : Int) < 2 ^ 31 := by exact_mod_cast hh
  constructor
  · have e1 : ((x : ℚ) - t.x) / t.scale * t.scale + t.x = ((x : Int) : ℚ) := by
      field_simp
    simp only [Transform.complex_to_point, Transform.pos_to_complex, e1]
    rw [f64ToI32_intCast x (by omega) (by omega)]
    simp
  · have e2 : (((t.window_size.2 : ℚ) - (y : ℚ)) - t.y) / t.scale * t.scale + t.y =
        (((t.window_size.2 : Int) - y : Int) : ℚ) := by
      push_cast
      field_simp
    simp only [Transform.complex_to_point, Transform.pos_to_complex, e2]
    rw [← Int.cast_neg, f64ToI32_intCast _ (by omega) (by omega),
      toI32_of_lt _ (by exact_mod_cast hhq),
      show -((t.window_size.2 : Int) - y) + (t.window_size.2 : Int) = y by ring,
      i32wrap_of_range y (by omega) (by omega)]
    simp

/-- Witness for C6 (amended) at the viewport of the repository's own
round-trip test: the default transform at `(200, 300)` and pixel
`(150, 250)`. -/
theorem roundtrip_within_one_witness :
    (((Transform.new (200, 300)).complex_to_point
        ((Transform.new (200, 300)).pos_to_complex 150 250)).1 - 150).natAbs ≤ 1 ∧
    (((Transform.new (200, 300)).complex_to_point
        ((Transform.new (200, 300)).pos_to_complex 150 250)).2 - 250).natAbs ≤ 1 :=
  roundtrip_within_one (Transform.new (200, 300)) (Reachable.new (200, 300))
    150 250 (by simp [insideViewport, Transform.new, Transform.reset])
    (by simp [Transform.new, Transform.reset])

/-- Counterexample to C6 as stated (for all viewports): over the
viewport `(1, 3221225472)` — a height of `3·2^30 ≥ 2^31` — the default
transform is reachable, pixel `(0, 0)` is inside the viewport, yet the
round trip lands at `y = 1073741824`: the negated float
`-(height - y) = -3221225472` saturates in the `f64 → i32` cast to
`-2^31`, `height as i32` wraps to `-2^30`, and the `i32` sum of the two
wraps to `2^30`, so the recovered `y`-coordinate is off by more than one
(in debug builds the `i32` addition would instead panic). -/
theorem roundtrip_counterexample :
    Reachable (Transform.new (1, 3221225472)) ∧
    insideViewport (Transform.new (1, 3221225472)) 0 0 ∧
    ¬ ((((Transform.new (1, 3221225472)).complex_to_point
        ((Transform.new (1, 3221225472)).pos_to_complex 0 0)).2 - 0).natAbs ≤ 1) := by
  refine ⟨Reachable.new _, by simp [insideViewport, Transform.new, Transform.reset], ?_⟩
  have hz : ((Transform.new (1, 3221225472)).pos_to_complex 0 0).im *
      (Transform.new (1, 3221225472)).scale + (Transform.new (1, 3221225472)).y =
      ((3221225472 : Int) : ℚ) := by
    simp only [Transform.new, Transform.reset, Transform.pos_to_complex]
    norm_num
  have hneg : f64ToI32 (-((3221225472 : Int) : ℚ)) = -2147483648 := by
    rw [← Int.cast_neg]
    simp only [f64ToI32, ratTrunc_intCast]
    decide
  have hw : toI32 ((Transform.new (1, 3221225472)).window_size.2) = -1073741824 := by
    simp [Transform.new, Transform.reset, toI32]
  simp only [Transform.complex_to_point, hz, hneg, hw]
  simp only [i32wrap]
  decide

theorem rowsOf_fst (height : Nat) (hh : height < 2 ^ 31) (t : Nat) :
    (rowsOf height t).1 = ((height / 12 : Nat) : Int) * t := by
  have h1 : toI32 height = (height : Int) := toI32_of_lt height hh
  have h2 : Int.tdiv (height : Int) 12 = ((height / 12 : Nat) : Int) :=
    (Int.ofNat_tdiv height 12).symm
  unfold rowsOf
  split <;> simp [h1, h2]

theorem rowsOf_snd_lt (height : Nat) (hh : height < 2 ^ 31) (t : Nat) (ht : t < 11) :
    (rowsOf height t).2 = ((height / 12 : Nat) : Int) * ((t : Int) + 1) := by
  have h1 : toI32 height = (height : Int) := toI32_of_lt height hh
  have h2 : Int.tdiv (height : Int) 12 = ((height / 12 : Nat) : Int) :=
    (Int.ofNat_tdiv height 12).symm
  unfold rowsOf
  rw [if_pos (show (t : Int) < 12 - 1 by push_cast; omega)]
  simp [h1, h2]

theorem rowsOf_snd_last (height : Nat) (hh : height < 2 ^ 31) :
    (rowsOf height 11).2 = (height : Int) := by
  have h1 : toI32 height = (height : Int) := toI32_of_lt height hh
  unfold rowsOf
  norm_num [h1]

/-- Uniform description of the upper ends of the row ranges. -/
theorem rowsOf_snd (height : Nat) (hh : height < 2 ^ 31) (t : Nat) (ht : t < 12) :
    (rowsOf height t).2 =
      if t < 11 then ((height / 12 : Nat) : Int) * ((t : Int) + 1) else (height : Int) := by
  by_cases h : t < 11
  · rw [if_pos h]
    exact rowsOf_snd_lt height hh t h
  · rw [if_neg h]
    have : t = 11 := by omega
    subst this
    exact rowsOf_snd_last height hh

/-- Every row range lies between 0 and `height`. -/
theorem rowsOf_bounds (height : Nat) (hh : height < 2 ^ 31) (t : Nat) (ht : t < 12) :
    0 ≤ (rowsOf height t).1 ∧ (rowsOf height t).2 ≤ (height : Int) := by
  have hdiv : 12 * (height / 12) ≤ height := by omega
  rw [rowsOf_fst height hh t, rowsOf_snd height hh t ht]
  refine ⟨by positivity, ?_⟩
  split
  · next hlt =>
    have h1 : (t : Int) + 1 ≤ 12 := by omega
    have h0 : (0 : Int) ≤ ((height / 12 : Nat) : Int) := by positivity
    have h2 : ((height / 12 : Nat) : Int) * ((t : Int) + 1) ≤
        ((height / 12 : Nat) : Int) * 12 := by nlinarith
    have h3 : ((height / 12 : Nat) : Int) * 12 ≤ (height : Int) := by
      push_cast
      omega
    omega
  · exact le_refl _

/-- Every row `0 ≤ y < height` is covered by one of the twelve row
ranges (the heart of the partition property, shared by the proofs about
the generators). -/
theorem rowsOf_cover_exists (height : Nat) (hh : height < 2 ^ 31) (y : Int)
    (hy0 : 0 ≤ y) (hyh : y < (height : Int)) :
    ∃ t : Nat, t < 12 ∧ inRowRange (rowsOf height t) y := by
  have hdiv : 12 * (height / 12) ≤ height ∧ height < 12 * (height / 12) + 12 := by
    omega
  have hyn : (y.toNat : Int) = y := Int.toNat_of_nonneg hy0
  set n := y.toNat with hn
  have hnh : n < height := by omega
  set r := height / 12 with hr
  by_cases hcase : n < 11 * r
  · -- covered by one of the first eleven ranges
    have hr0 : 0 < r := by omega
    obtain ⟨q, m, hq1, hq2⟩ : ∃ q m, r * q + m = n ∧ m < r :=
      ⟨n / r, n % r, Nat.div_add_mod n r, Nat.mod_lt n hr0⟩
    have h11 : q < 11 := by
      by_contra hcon
      have : r * 11 ≤ r * q := Nat.mul_le_mul_left r (by omega)
      omega
    refine ⟨q, by omega, ?_⟩
    simp only [inRowRange]
    rw [rowsOf_fst height hh q, rowsOf_snd height hh q (by omega), if_pos h11]
    have hnq1 : r * q ≤ n := by omega
    have hnq2 : n < r * (q + 1) := by
      have : r * (q + 1) = r * q + r := by ring
      omega
    constructor
    · calc ((r : Nat) : Int) * (q : Int) = ((r * q : Nat) : Int) := by push_cast; ring
        _ ≤ (n : Int) := by exact_mod_cast hnq1
        _ = y := hyn
    · calc y = (n : Int) := hyn.symm
        _ < ((r * (q + 1) : Nat) : Int) := by exact_mod_cast hnq2
        _ = ((r : Nat) : Int) * ((q : Int) + 1) := by push_cast; ring
  · -- covered by the last range
    refine ⟨11, by omega, ?_⟩
    simp only [inRowRange]
    rw [rowsOf_fst height hh 11, rowsOf_snd height hh 11 (by omega), if_neg (by omega)]
    have h1 : 11 * r ≤ n := by omega
    constructor
    · calc ((r : Nat) : Int) * ((11 : Nat) : Int)
          = ((11 * r : Nat) : Int) := by push_cast; ring
        _ ≤ (n : Int) := by exact_mod_cast h1
        _ = y := hyn
    · omega

/-- C7 (amended to heights below `2^31`, where the `height as i32` cast
is exact): the twelve row ranges of `generate_image_thread` end at
`height` (the last range absorbing the remainder), are contiguous,
pairwise disjoint, and cover exactly the rows `0..height` — including
when `height < 12`, where the first eleven ranges are empty. -/
theorem thread_rows_partition (height : Nat) (hh : height < 2 ^ 31) :
    (rowsOf height 11).2 = (height : Int) ∧
    (∀ t : Nat, t + 1 < 12 → (rowsOf height t).2 = (rowsOf height (t + 1)).1) ∧
    (∀ i j : Nat, i < 12 → j < 12 → i ≠ j →
      ∀ y : Int, inRowRange (rowsOf height i) y → ¬ inRowRange (rowsOf height j) y) ∧
    (∀ y : Int,
      (∃ t : Nat, t < 12 ∧ inRowRange (rowsOf height t) y) ↔ 0 ≤ y ∧ y < (height : Int)) := by
  have hdiv : 12 * (height / 12) ≤ height ∧ height < 12 * (height / 12) + 12 := by
    omega
  have hfst : ∀ t : Nat, (rowsOf height t).1 = ((height / 12 : Nat) : Int) * t :=
    fun t => rowsOf_fst height hh t
  -- the end of range i is at most the start of range j for i < j
  have hle : ∀ i j : Nat, i < j → j < 12 → (rowsOf height i).2 ≤ (rowsOf height j).1 := by
    intro i j hij hj
    rw [hfst j, rowsOf_snd height hh i (by omega), if_pos (by omega)]
    have h1 : (i : Int) + 1 ≤ (j : Int) := by omega
    have h0 : (0 : Int) ≤ ((height / 12 : Nat) : Int) := by positivity
    nlinarith
  refine ⟨rowsOf_snd_last height hh, ?_, ?_, ?_⟩
  · intro t ht
    rw [rowsOf_snd height hh t (by omega), if_pos (by omega), hfst (t + 1)]
    push_cast
    ring
  · intro i j hi hj hij y hy
    intro hy'
    rcases Nat.lt_or_ge i j with h | h
    · have := hle i j h hj
      simp only [inRowRange] at hy hy'
      omega
    · have hji : j < i := by omega
      have := hle j i hji hi
      simp only [inRowRange] at hy hy'
      omega
  · intro y
    constructor
    · rintro ⟨t, ht, hy⟩
      simp only [inRowRange] at hy
      obtain ⟨hb1, hb2⟩ := rowsOf_bounds height hh t ht
      exact ⟨by omega, by omega⟩
    · rintro ⟨hy0, hyh⟩
      exact rowsOf_cover_exists height hh y hy0 hyh

/-- Witness for C7 (amended) at the small height 5 (< the worker count):
row 3 is covered by one of the twelve ranges. -/
theorem thread_rows_partition_witness :
    ∃ t : Nat, t < 12 ∧ inRowRange (rowsOf 5 t) 3 :=
  ((thread_rows_partition 5 (by norm_num)).2.2.2 3).mpr (by norm_num)

/-- Counterexample to C7 as stated (for every image height): at
`height = 2^31` the cast `height as i32` wraps to `-2^31`, every row
range is empty, and in particular row 0 — a valid row, since
`0 < 2^31` — is covered by no worker. -/
theorem thread_rows_counterexample :
    0 < (2 ^ 31 : Nat) ∧ (∀ t : Nat, t < 12 → ¬ inRowRange (rowsOf (2 ^ 31) t) 0) := by
  constructor
  · norm_num
  · decide

theorem prefixSum_succ (counts : List Int) (n : Nat) :
    prefixSum counts (n + 1) = prefixSum counts n + counts.getD n 0 := by
  simp [prefixSum, List.range_succ]

theorem tally_foldl_length (ps : List MandelPixel) :
    ∀ acc : List Int,
      (ps.foldl (fun acc p => acc.set p.iterations (acc.getD p.iterations 0 + 1)) acc).length
        = acc.length := by
  induction ps with
  | nil => intro acc; rfl
  | cons p ps ih =>
    intro acc
    rw [List.foldl_cons, ih, List.length_set]

theorem tally_foldl_getD (ps : List MandelPixel) :
    ∀ (acc : List Int) (i : Nat), i < acc.length →
      (ps.foldl (fun acc p => acc.set p.iterations (acc.getD p.iterations 0 + 1)) acc).getD i 0
        = acc.getD i 0 + countPix ps i := by
  induction ps with
  | nil =>
    intro acc i hi
    simp [countPix]
  | cons p ps ih =>
    intro acc i hi
    rw [List.foldl_cons, ih _ i (by rw [List.length_set]; exact hi)]
    by_cases hpi : p.iterations = i
    · have hset : (acc.set p.iterations (acc.getD p.iterations 0 + 1)).getD i 0 =
          acc.getD i 0 + 1 := by
        subst hpi
        simp [List.getD_eq_getElem?_getD, List.getElem?_set_self hi]
      have hcnt : countPix (p :: ps) i = countPix ps i + 1 := by
        simp [countPix, List.filter_cons, hpi]
      rw [hset, hcnt]
      ring
    · have hset : (acc.set p.iterations (acc.getD p.iterations 0 + 1)).getD i 0 =
          acc.getD i 0 := by
        simp [List.getD_eq_getElem?_getD, List.getElem?_set_ne hpi]
      have hcnt : countPix (p :: ps) i = countPix ps i := by
        simp [countPix, List.filter_cons, hpi]
      rw [hset, hcnt]

theorem countsOf_length (img : MandelImage) :
    (countsOf img).length = img.max_iterations + 1 := by
  unfold countsOf
  rw [tally_foldl_length]
  simp

theorem countsOf_getD (img : MandelImage) (i : Nat) (hi : i < img.max_iterations + 1) :
    (countsOf img).getD i 0 = countPix img.data i := by
  unfold countsOf
  rw [tally_foldl_getD _ _ i (by simpa using hi)]
  simp [List.getD_eq_getElem?_getD, List.getElem?_replicate, hi]

theorem countsOf_getD_nonneg (img : MandelImage) (i : Nat) :
    0 ≤ (countsOf img).getD i 0 := by
  by_cases hi : i < img.max_iterations + 1
  · rw [countsOf_getD img i hi]
    exact Int.ofNat_nonneg _
  · rw [List.getD_eq_getElem?_getD, List.getElem?_eq_none (by rw [countsOf_length]; omega)]
    rfl

theorem tallyCounts_wrap_aux (ps : List MandelPixel) :
    ∀ acc : List Int, (∀ p ∈ ps, p.iterations < acc.length) →
      (∀ i, 0 ≤ acc.getD i 0) →
      (∀ i, acc.getD i 0 + (ps.length : Int) < 2 ^ 31) →
      ps.foldlM
        (fun acc p =>
          (acc[p.iterations]?).map fun c => acc.set p.iterations (i32wrap (c + 1))) acc
        = some (ps.foldl (fun acc p => acc.set p.iterations (acc.getD p.iterations 0 + 1)) acc) := by
  induction ps with
  | nil => intro acc _ _ _; rfl
  | cons p ps ih =>
    intro acc h hpos hbnd
    have hp : p.iterations < acc.length := h p (by simp)
    have hget : acc[p.iterations]? = some (acc.getD p.iterations 0) := by
      rw [List.getElem?_eq_getElem hp]
      rw [List.getD_eq_getElem?_getD, List.getElem?_eq_getElem hp]
      rfl
    have hb' : acc.getD p.iterations 0 + (ps.length : Int) + 1 < 2 ^ 31 := by
      have := hbnd p.iterations
      simp only [List.length_cons] at this
      push_cast at this
      omega
    have hp0 := hpos p.iterations
    have hwrap : i32wrap (acc.getD p.iterations 0 + 1) = acc.getD p.iterations 0 + 1 :=
      i32wrap_of_range _ (by omega) (by omega)
    rw [List.foldlM_cons, List.foldl_cons, hget]
    simp only [Option.map_some, Option.map_some', Option.bind_eq_bind, Option.some_bind]
    rw [hwrap]
    refine ih _ (fun q hq => by rw [List.length_set]; exact h q (by simp [hq])) ?_ ?_
    · intro i
      by_cases hi : i = p.iterations
      · subst hi
        rw [List.getD_eq_getElem?_getD, List.getElem?_set_self hp]
        simp only [Option.getD_some]
        omega
      · rw [List.getD_eq_getElem?_getD, List.getElem?_set_ne (Ne.symm hi),
          ← List.getD_eq_getElem?_getD]
        exact hpos i
    · intro i
      by_cases hi : i = p.iterations
      · subst hi
        rw [List.getD_eq_getElem?_getD, List.getElem?_set_self hp]
        simp only [Option.getD_some]
        omega
      · rw [List.getD_eq_getElem?_getD, List.getElem?_set_ne (Ne.symm hi),
          ← List.getD_eq_getElem?_getD]
        have := hbnd i
        simp only [List.length_cons] at this
        push_cast at this
        omega

theorem tallyCounts_eq_countsOf (img : MandelImage)
    (hin : ∀ p ∈ img.data, p.iterations ≤ img.max_iterations)
    (hlen : img.data.length < 2 ^ 31) :
    tallyCounts (img.max_iterations + 1) img.data = some (countsOf img) := by
  have hrep : ∀ i : Nat,
      (List.replicate (img.max_iterations + 1) (0 : Int)).getD i 0 = 0 := by
    intro i
    rw [List.getD_eq_getElem?_getD, List.getElem?_replicate]
    split <;> rfl
  unfold tallyCounts countsOf
  refine tallyCounts_wrap_aux img.data _ (fun p hp => ?_) (fun i => ?_) (fun i => ?_)
  · have := hin p hp
    simp only [List.length_replicate]
    omega
  · rw [hrep i]
  · rw [hrep i]
    omega

theorem cdfFoldSt_spec (counts : List Int) (size : Nat) :
    ∀ m, m ≤ size →
      (cdfFoldSt counts size m).2 = prefixSum counts m ∧
      (cdfFoldSt counts size m).1.length = size ∧
      ∀ j, (cdfFoldSt counts size m).1.getD j 0 =
        if j < m then prefixSum counts (j + 1) else 0 := by
  intro m
  induction m with
  | zero =>
    intro _
    refine ⟨by simp [cdfFoldSt, prefixSum], by simp [cdfFoldSt], ?_⟩
    intro j
    simp [cdfFoldSt, List.getD_eq_getElem?_getD, List.getElem?_replicate]
    split <;> rfl
  | succ m ih =>
    intro hm
    obtain ⟨ih2, ihlen, ihget⟩ := ih (by omega)
    have hstep : cdfFoldSt counts size (m + 1) =
        ((cdfFoldSt counts size m).1.set m
            ((cdfFoldSt counts size m).2 + counts.getD m 0),
          (cdfFoldSt counts size m).2 + counts.getD m 0) := by
      unfold cdfFoldSt
      rw [List.range_succ, List.foldl_append]
      rfl
    rw [hstep]
    refine ⟨by simp [ih2, prefixSum_succ], by simp [ihlen], ?_⟩
    intro j
    by_cases hj : j = m
    · subst hj
      have hlt : j < (cdfFoldSt counts size j).1.length := by
        rw [ihlen]
        omega
      rw [List.getD_eq_getElem?_getD, List.getElem?_set_self hlt, ih2]
      simp [prefixSum_succ]
    · rw [List.getD_eq_getElem?_getD, List.getElem?_set_ne (by omega : m ≠ j),
        ← List.getD_eq_getElem?_getD, ihget j]
      by_cases h2 : j < m
      · rw [if_pos h2, if_pos (by omega)]
      · rw [if_neg h2, if_neg (by omega)]

theorem cdfFoldSt_succ (counts : List Int) (size m : Nat) :
    cdfFoldSt counts size (m + 1) =
      ((cdfFoldSt counts size m).1.set m
          ((cdfFoldSt counts size m).2 + counts.getD m 0),
        (cdfFoldSt counts size m).2 + counts.getD m 0) := by
  unfold cdfFoldSt
  rw [List.range_succ, List.foldl_append]
  rfl

theorem cdfBuild_aux (counts : List Int) (maxIter size : Nat)
    (hms : maxIter ≤ size)
    (hbound : ∀ k, k ≤ maxIter →
      -(2 ^ 31) ≤ prefixSum counts k ∧ prefixSum counts k < 2 ^ 31) :
    ∀ m, m ≤ maxIter →
      (List.range m).foldlM
        (fun st i =>
          if i < size then
            some (st.1.set i (i32wrap (st.2 + counts.getD i 0)),
              i32wrap (st.2 + counts.getD i 0))
          else none)
        (List.replicate size (0 : Int), (0 : Int))
        = some (cdfFoldSt counts size m) := by
  intro m
  induction m with
  | zero => intro _; rfl
  | succ m ih =>
    intro hm
    rw [List.range_succ, List.foldlM_append, ih (by omega)]
    have hst2 : (cdfFoldSt counts size m).2 = prefixSum counts m :=
      (cdfFoldSt_spec counts size m (le_trans (by omega) hms)).1
    have hw : i32wrap ((cdfFoldSt counts size m).2 + counts.getD m 0) =
        (cdfFoldSt counts size m).2 + counts.getD m 0 := by
      rw [hst2, ← prefixSum_succ]
      exact i32wrap_of_range _ (hbound (m + 1) hm).1 (hbound (m + 1) hm).2
    simp only [Option.bind_eq_bind, Option.some_bind, List.foldlM_cons, List.foldlM_nil,
      bind_pure]
    rw [if_pos (show m < size by omega), hw, cdfFoldSt_succ]

theorem cdfBuild_eq_cdfFoldSt (counts : List Int) (maxIter size : Nat)
    (hms : maxIter ≤ size)
    (hbound : ∀ k, k ≤ maxIter →
      -(2 ^ 31) ≤ prefixSum counts k ∧ prefixSum counts k < 2 ^ 31) :
    cdfBuild counts maxIter size = some (cdfFoldSt counts size maxIter).1 := by
  unfold cdfBuild
  rw [cdfBuild_aux counts maxIter size hms hbound maxIter (le_refl _)]
  rfl

theorem sum_take_eq_prefixSum (l : List Int) :
    ∀ m, m ≤ l.length → (l.take m).sum = prefixSum l m := by
  intro m
  induction m with
  | zero => intro _; simp [prefixSum]
  | succ m ih =>
    intro h
    rw [List.sum_take_succ l m (by omega), ih (by omega), prefixSum_succ]
    congr 1
    rw [List.getD_eq_getElem?_getD, List.getElem?_eq_getElem (by omega)]
    rfl

theorem nominatorOf_eq (img : MandelImage) :
    nominatorOf img = prefixSum (countsOf img) img.max_iterations -
      (if 0 < img.max_iterations then prefixSum (countsOf img) 1 else 0) := by
  unfold nominatorOf
  rw [sum_take_eq_prefixSum _ _ (by rw [countsOf_length]; omega),
    (cdfFoldSt_spec (countsOf img) (img.max_iterations + 1) img.max_iterations
      (by omega)).2.2 0]

theorem prefixSum_mono (counts : List Int) (hpos : ∀ i, 0 ≤ counts.getD i 0)
    {a b : Nat} (hab : a ≤ b) : prefixSum counts a ≤ prefixSum counts b := by
  induction b, hab using Nat.le_induction with
  | base => exact le_refl _
  | succ b _ ih =>
    rw [prefixSum_succ]
    have := hpos b
    omega

theorem i32sum_aux (l : List Int) :
    ∀ s : Int,
      (∀ k, k ≤ l.length →
        -(2 ^ 31) ≤ s + (l.take k).sum ∧ s + (l.take k).sum < 2 ^ 31) →
      l.foldl (fun a c => i32wrap (a + c)) s = s + l.sum := by
  induction l with
  | nil => intro s _; simp
  | cons c l ih =>
    intro s hb
    have hb' : ∀ k, k ≤ l.length →
        -(2 ^ 31) ≤ s + c + (l.take k).sum ∧ s + c + (l.take k).sum < 2 ^ 31 := by
      intro k hk
      have h2 := hb (k + 1) (by simp only [List.length_cons]; omega)
      simp only [List.take_succ_cons, List.sum_cons, ← add_assoc] at h2
      exact h2
    have h1 := hb' 0 (Nat.zero_le _)
    simp only [List.take_zero, List.sum_nil, add_zero] at h1
    rw [List.foldl_cons, i32wrap_of_range _ h1.1 h1.2, ih (s + c) hb', List.sum_cons]
    ring

theorem i32sum_eq_sum (l : List Int)
    (hb : ∀ k, k ≤ l.length →
      -(2 ^ 31) ≤ (l.take k).sum ∧ (l.take k).sum < 2 ^ 31) :
    i32sum l = l.sum := by
  unfold i32sum
  rw [i32sum_aux l 0 (by intro k hk; simpa using hb k hk)]
  simp

theorem filter_lt_succ_length (data : List MandelPixel) (m : Nat) :
    (data.filter fun p => p.iterations < m + 1).length =
      (data.filter fun p => p.iterations < m).length +
      (data.filter fun p => p.iterations = m).length := by
  induction data with
  | nil => rfl
  | cons p data ih =>
    simp only [List.filter_cons]
    rcases Nat.lt_trichotomy p.iterations m with h | h | h
    · rw [if_pos (by simp only [decide_eq_true_eq]; omega),
        if_pos (by simp only [decide_eq_true_eq]; omega),
        if_neg (by simp only [decide_eq_true_eq]; omega)]
      simp only [List.length_cons]
      omega
    · rw [if_pos (by simp only [decide_eq_true_eq]; omega),
        if_neg (by simp only [decide_eq_true_eq]; omega),
        if_pos (by simp only [decide_eq_true_eq]; omega)]
      simp only [List.length_cons]
      omega
    · rw [if_neg (by simp only [decide_eq_true_eq]; omega),
        if_neg (by simp only [decide_eq_true_eq]; omega),
        if_neg (by simp only [decide_eq_true_eq]; omega)]
      exact ih

theorem prefixSum_countsOf_filter (img : MandelImage) :
    ∀ m, m ≤ img.max_iterations + 1 →
      prefixSum (countsOf img) m =
        ((img.data.filter fun p => p.iterations < m).length : Int) := by
  intro m
  induction m with
  | zero =>
    intro _
    have h0 : (img.data.filter fun p => p.iterations < 0) = [] := by
      apply List.filter_eq_nil_iff.mpr
      intro a _
      simp
    rw [h0]
    simp [prefixSum]
  | succ m ih =>
    intro hm
    rw [prefixSum_succ, ih (by omega), countsOf_getD img m (by omega)]
    unfold countPix
    rw [filter_lt_succ_length]
    push_cast
    ring

theorem prefixSum_countsOf_bounds (img : MandelImage) (m : Nat)
    (hm : m ≤ img.max_iterations + 1) :
    0 ≤ prefixSum (countsOf img) m ∧
      prefixSum (countsOf img) m ≤ (img.data.length : Int) := by
  rw [prefixSum_countsOf_filter img m hm]
  constructor
  · exact Int.ofNat_nonneg _
  · exact_mod_cast List.length_filter_le _ _

theorem prefixSum_countsOf_range (img : MandelImage)
    (hlen : img.data.length < 2 ^ 31) :
    ∀ k, k ≤ img.max_iterations + 1 →
      -(2 ^ 31) ≤ prefixSum (countsOf img) k ∧
        prefixSum (countsOf img) k < 2 ^ 31 := by
  intro k hk
  have hb := prefixSum_countsOf_bounds img k hk
  omega

theorem cdf_getD_bounds (img : MandelImage) (j : Nat) :
    0 ≤ (cdfFoldSt (countsOf img) (img.max_iterations + 1)
        img.max_iterations).1.getD j 0 ∧
      (cdfFoldSt (countsOf img) (img.max_iterations + 1)
        img.max_iterations).1.getD j 0 ≤ (img.data.length : Int) := by
  rw [(cdfFoldSt_spec (countsOf img) (img.max_iterations + 1) img.max_iterations
    (by omega)).2.2 j]
  by_cases hj : j < img.max_iterations
  · rw [if_pos hj]
    exact prefixSum_countsOf_bounds img (j + 1) (by omega)
  · rw [if_neg hj]
    exact ⟨le_refl 0, Int.ofNat_nonneg _⟩

theorem i32sum_countsOf (img : MandelImage) (hlen : img.data.length < 2 ^ 31) :
    i32sum ((countsOf img).take img.max_iterations) =
      prefixSum (countsOf img) img.max_iterations := by
  have htake : ∀ k, k ≤ ((countsOf img).take img.max_iterations).length →
      -(2 ^ 31) ≤ (((countsOf img).take img.max_iterations).take k).sum ∧
        (((countsOf img).take img.max_iterations).take k).sum < 2 ^ 31 := by
    intro k hk
    rw [List.take_take, sum_take_eq_prefixSum _ _ (by rw [countsOf_length]; omega)]
    exact prefixSum_countsOf_range img hlen (min k img.max_iterations) (by omega)
  rw [i32sum_eq_sum _ htake, sum_take_eq_prefixSum _ _ (by rw [countsOf_length]; omega)]

theorem adjusted_wrap_eq (img : MandelImage)
    (hlen : img.data.length < 2 ^ 31) (n : Nat) :
    (if n = img.max_iterations then n
     else
       histVal
         (i32wrap ((cdfFoldSt (countsOf img) (img.max_iterations + 1)
             img.max_iterations).1.getD n 0 -
           (cdfFoldSt (countsOf img) (img.max_iterations + 1)
             img.max_iterations).1.getD 0 0))
         (i32wrap (i32sum ((countsOf img).take img.max_iterations) -
           (cdfFoldSt (countsOf img) (img.max_iterations + 1)
             img.max_iterations).1.getD 0 0))
         (u32sub img.max_iterations 1))
      = adjustedFn img n := by
  by_cases hn : n = img.max_iterations
  · rw [if_pos hn]
    unfold adjustedFn
    rw [if_pos hn]
  · have hj := cdf_getD_bounds img n
    have h0 := cdf_getD_bounds img 0
    have hw1 : i32wrap ((cdfFoldSt (countsOf img) (img.max_iterations + 1)
          img.max_iterations).1.getD n 0 -
        (cdfFoldSt (countsOf img) (img.max_iterations + 1)
          img.max_iterations).1.getD 0 0) =
        (cdfFoldSt (countsOf img) (img.max_iterations + 1)
          img.max_iterations).1.getD n 0 -
        (cdfFoldSt (countsOf img) (img.max_iterations + 1)
          img.max_iterations).1.getD 0 0 :=
      i32wrap_of_range _ (by omega) (by omega)
    have hps := prefixSum_countsOf_bounds img img.max_iterations (by omega)
    have hw2 : i32wrap (i32sum ((countsOf img).take img.max_iterations) -
        (cdfFoldSt (countsOf img) (img.max_iterations + 1)
          img.max_iterations).1.getD 0 0) = nominatorOf img := by
      rw [i32sum_countsOf img hlen,
        i32wrap_of_range _ (by omega) (by omega)]
      unfold nominatorOf
      rw [sum_take_eq_prefixSum _ _ (by rw [countsOf_length]; omega)]
    rw [if_neg hn, hw1, hw2]
    unfold adjustedFn
    rw [if_neg hn]

theorem mapM_option_eq_map {α β : Type} (f : α → Option β) (g : α → β) :
    ∀ l : List α, (∀ a ∈ l, f a = some (g a)) → l.mapM f = some (l.map g) := by
  intro l
  induction l with
  | nil => intro _; rfl
  | cons a l ih =>
    intro h
    rw [List.map_cons, List.mapM_cons, h a (by simp),
      ih fun b hb => h b (by simp [hb])]
    rfl

theorem round_nonneg_of_nonneg (q : ℚ) (h : 0 ≤ q) : 0 ≤ round q := by
  rw [round_eq]
  exact Int.le_floor.mpr (by push_cast; linarith)

theorem round_le_int (q : ℚ) (k : Int) (h : q ≤ (k : ℚ)) : round q ≤ k := by
  rw [round_eq]
  exact Int.floor_le_iff.mpr (by linarith)

theorem round_mono_le {a b : ℚ} (h : a ≤ b) : round a ≤ round b := by
  rw [round_eq, round_eq]
  exact Int.floor_mono (by linarith)

theorem u32Sat_mono {a b : Int} (h : a ≤ b) : u32Sat a ≤ u32Sat b :=
  Int.toNat_le_toNat (min_le_min h (le_refl _))

theorem u32Sat_le_of_le (i : Int) (k : Nat) (h : i ≤ (k : Int)) : u32Sat i ≤ k := by
  unfold u32Sat
  have h1 : min i (2 ^ 32 - 1) ≤ (k : Int) := le_trans (min_le_left _ _) h
  have := Int.toNat_le_toNat h1
  simpa using this

/-- Lookup value bound: with a positive denominator and a numerator in
`[0, den]`, the equalized value is at most `m`. -/
theorem histVal_le (num den : Int) (m : Nat) (h0 : 0 ≤ num) (hnd : num ≤ den)
    (hd : 0 < den) : histVal num den m ≤ m := by
  unfold histVal
  rw [if_neg (by omega)]
  have hd0 : (0 : ℚ) < (den : ℚ) := by exact_mod_cast hd
  have hval0 : (0 : ℚ) ≤ (num : ℚ) / (den : ℚ) * (m : ℚ) := by
    have h1 : (0 : ℚ) ≤ (num : ℚ) := by exact_mod_cast h0
    have h2 : (0 : ℚ) ≤ (num : ℚ) / (den : ℚ) := div_nonneg h1 (le_of_lt hd0)
    exact mul_nonneg h2 (by positivity)
  have hval : (num : ℚ) / (den : ℚ) * (m : ℚ) ≤ (m : ℚ) := by
    have h1 : (num : ℚ) / (den : ℚ) ≤ 1 :=
      (div_le_one hd0).mpr (by exact_mod_cast hnd)
    calc (num : ℚ) / (den : ℚ) * (m : ℚ) ≤ 1 * (m : ℚ) :=
          mul_le_mul_of_nonneg_right h1 (by positivity)
      _ = (m : ℚ) := one_mul _
  unfold rustRound
  rw [if_pos hval0]
  exact u32Sat_le_of_le _ m (round_le_int _ _ (by exact_mod_cast hval))

/-- Lookup monotonicity in the numerator, for a positive denominator. -/
theorem histVal_mono (num num' den : Int) (m : Nat) (h0 : 0 ≤ num)
    (hnn : num ≤ num') (hd : 0 < den) :
    histVal num den m ≤ histVal num' den m := by
  unfold histVal
  rw [if_neg (by omega), if_neg (by omega)]
  have hd0 : (0 : ℚ) < (den : ℚ) := by exact_mod_cast hd
  have hnum0 : (0 : ℚ) ≤ (num : ℚ) := by exact_mod_cast h0
  have hval0 : (0 : ℚ) ≤ (num : ℚ) / (den : ℚ) * (m : ℚ) :=
    mul_nonneg (div_nonneg hnum0 (le_of_lt hd0)) (by positivity)
  have hval0' : (0 : ℚ) ≤ (num' : ℚ) / (den : ℚ) * (m : ℚ) := by
    have : (0 : ℚ) ≤ (num' : ℚ) := by
      have : (0 : Int) ≤ num' := le_trans h0 hnn
      exact_mod_cast this
    exact mul_nonneg (div_nonneg this (le_of_lt hd0)) (by positivity)
  have hle : (num : ℚ) / (den : ℚ) * (m : ℚ) ≤ (num' : ℚ) / (den : ℚ) * (m : ℚ) := by
    have h1 : (num : ℚ) / (den : ℚ) ≤ (num' : ℚ) / (den : ℚ) :=
      (div_le_div_iff_of_pos_right hd0).mpr (by exact_mod_cast hnn)
    exact mul_le_mul_of_nonneg_right h1 (by positivity)
  unfold rustRound
  rw [if_pos hval0, if_pos hval0']
  exact u32Sat_mono (round_mono_le hle)

theorem u32sub_one (a : Nat) (h1 : 1 ≤ a) (h2 : a < 2 ^ 32) : u32sub a 1 = a - 1 := by
  unfold u32sub
  omega

/-- Evaluation of `equalize_image` on any image with in-range raw
values whose `u32` size computation and `i32` histogram arithmetic do
not overflow: it succeeds and writes `adjusted[p.iterations]` to every
pixel's `iterations_equalized`, leaving everything else unchanged. -/
theorem equalize_image_eq (img : MandelImage)
    (hin : ∀ p ∈ img.data, p.iterations ≤ img.max_iterations)
    (hmax : img.max_iterations + 1 < 2 ^ 32)
    (hlen : img.data.length < 2 ^ 31) :
    equalize_image img =
      some { img with data := img.data.map fun p =>
        { p with iterations_equalized := adjustedFn img p.iterations } } := by
  have hClen : (cdfFoldSt (countsOf img) (img.max_iterations + 1)
      img.max_iterations).1.length = img.max_iterations + 1 :=
    (cdfFoldSt_spec (countsOf img) (img.max_iterations + 1) img.max_iterations
      (by omega)).2.1
  have h0 : 0 < (cdfFoldSt (countsOf img) (img.max_iterations + 1)
      img.max_iterations).1.length := by
    rw [hClen]
    omega
  have hc0 : ((cdfFoldSt (countsOf img) (img.max_iterations + 1)
      img.max_iterations).1)[0]? =
      some ((cdfFoldSt (countsOf img) (img.max_iterations + 1)
        img.max_iterations).1.getD 0 0) := by
    rw [List.getElem?_eq_getElem h0, List.getD_eq_getElem?_getD,
      List.getElem?_eq_getElem h0]
    rfl
  unfold equalize_image
  dsimp only
  rw [Nat.mod_eq_of_lt hmax, tallyCounts_eq_countsOf img hin hlen]
  simp only [Option.bind_eq_bind, Option.some_bind]
  rw [cdfBuild_eq_cdfFoldSt (countsOf img) img.max_iterations (img.max_iterations + 1)
    (by omega) (fun k hk => prefixSum_countsOf_range img hlen k (by omega))]
  simp only [Option.some_bind]
  rw [hc0]
  simp only [Option.some_bind]
  rw [mapM_option_eq_map _
    (fun p => { p with iterations_equalized := adjustedFn img p.iterations })
    img.data ?_]
  · rfl
  · intro p hp
    have hlt : p.iterations < img.max_iterations + 1 := by
      have := hin p hp
      omega
    rw [List.getElem?_map, List.getElem?_range hlt]
    simp only [Option.map_some, Option.map_some']
    rw [adjusted_wrap_eq img hlen p.iterations]

/-- C10 (amended): on an image with all raw values in
`[0, max_iterations]`, with `max_iterations + 1 < 2^32` (so the `u32`
size computation does not wrap) and fewer than `2^31` pixels (so the
`i32` histogram arithmetic is exact), whose `nominator` is zero,
`equalize_image` still terminates without panicking: the unguarded
division is `0.0/0.0 = NaN` (every numerator `cdf[n] - cdf[0]` is
provably 0 when the nominator is), `NaN as u32` saturates to 0, so
every cell with `iterations < max_iterations` gets
`iterations_equalized = 0` and every in-set cell gets
`max_iterations`.  Without the bound on `max_iterations` the claim
fails, see the counterexample. -/
theorem equalize_degenerate (img : MandelImage)
    (hin : ∀ p ∈ img.data, p.iterations ≤ img.max_iterations)
    (hmax : img.max_iterations + 1 < 2 ^ 32)
    (hlen : img.data.length < 2 ^ 31)
    (hnom : nominatorOf img = 0) :
    equalize_image img =
      some { img with data := img.data.map fun p =>
        { p with iterations_equalized :=
            if p.iterations = img.max_iterations then img.max_iterations else 0 } } := by
  rw [equalize_image_eq img hin hmax hlen]
  have hmap : (img.data.map fun p =>
        { p with iterations_equalized := adjustedFn img p.iterations }) =
      img.data.map fun p =>
        { p with iterations_equalized :=
            if p.iterations = img.max_iterations then img.max_iterations else 0 } := by
    apply List.map_congr_left
    intro p hp
    have hle := hin p hp
    by_cases hpm : p.iterations = img.max_iterations
    · simp [adjustedFn, hpm]
    · have hlt : p.iterations < img.max_iterations := by omega
      have hcdf := (cdfFoldSt_spec (countsOf img) (img.max_iterations + 1)
        img.max_iterations (by omega)).2.2
      have hP : prefixSum (countsOf img) (p.iterations + 1) =
          prefixSum (countsOf img) 1 := by
        have hmono1 := prefixSum_mono (countsOf img) (countsOf_getD_nonneg img)
          (show 1 ≤ p.iterations + 1 by omega)
        have hmono2 := prefixSum_mono (countsOf img) (countsOf_getD_nonneg img)
          (show p.iterations + 1 ≤ img.max_iterations by omega)
        have hn := nominatorOf_eq img
        rw [if_pos (by omega)] at hn
        omega
      unfold adjustedFn
      rw [if_neg hpm, hcdf p.iterations, hcdf 0,
        if_pos hlt, if_pos (by omega), hP, hnom]
      simp [histVal, hpm]
  rw [hmap]

/-- Witness for C10 (amended): a `1 × 2` image with budget 5 whose
pixels carry raw values 0 and 5 (so `nominator = c₀ - c₀ = 0`): the
escaping pixel is equalized to 0 and the in-set pixel keeps 5. -/
theorem equalize_degenerate_witness :
    equalize_image ⟨1, 2, 5, [⟨0, 0, 0, 0⟩, ⟨0, 1, 5, 0⟩]⟩ =
      some ⟨1, 2, 5, [⟨0, 0, 0, 0⟩, ⟨0, 1, 5, 5⟩]⟩ := by
  rw [equalize_degenerate ⟨1, 2, 5, [⟨0, 0, 0, 0⟩, ⟨0, 1, 5, 0⟩]⟩
    (by decide) (by decide) (by decide) (by decide)]
  rfl

/-- Counterexample to C10 as stated (no bound on `max_iterations`): at
`max_iterations = u32::MAX` the all-in-set `1 × 1` image has every raw
value in range and its `nominator` would be zero, yet
`(max_iterations + 1) as usize` wraps to 0, the histogram vector is
empty, and the very first count update indexes out of bounds — the
program panics instead of terminating. -/
theorem equalize_degenerate_counterexample :
    (∀ p ∈ (⟨1, 1, 4294967295, [⟨0, 0, 4294967295, 0⟩]⟩ : MandelImage).data,
        p.iterations ≤
          (⟨1, 1, 4294967295, [⟨0, 0, 4294967295, 0⟩]⟩ :
            MandelImage).max_iterations) ∧
    nominatorOf ⟨1, 1, 4294967295, [⟨0, 0, 4294967295, 0⟩]⟩ = 0 ∧
    equalize_image ⟨1, 1, 4294967295, [⟨0, 0, 4294967295, 0⟩]⟩ = none := by
  refine ⟨by decide, ?_, by decide⟩
  have h1 : prefixSum (countsOf (⟨1, 1, 4294967295, [⟨0, 0, 4294967295, 0⟩]⟩ :
      MandelImage)) 4294967295 = 0 := by
    rw [prefixSum_countsOf_filter _ 4294967295 (by decide)]
    decide
  have h2 : prefixSum (countsOf (⟨1, 1, 4294967295, [⟨0, 0, 4294967295, 0⟩]⟩ :
      MandelImage)) 1 = 0 := by
    rw [prefixSum_countsOf_filter _ 1 (by decide)]
    decide
  have hM : (⟨1, 1, 4294967295, [⟨0, 0, 4294967295, 0⟩]⟩ :
      MandelImage).max_iterations = 4294967295 := rfl
  rw [nominatorOf_eq, hM, h1, h2]
  decide

/-- C5 (amended): on an image with all raw values in
`[0, max_iterations]`, with `max_iterations + 1 < 2^32` (so the `u32`
size computation does not wrap) and fewer than `2^31` pixels (so the
`i32` histogram arithmetic is exact), and with a nonzero `nominator`,
`equalize_image` succeeds, and the computed raw-value → equalized-value
mapping `adjusted` is monotone non-decreasing, bounded by
`max_iterations`, and fixes `max_iterations`.  Without the overflow
bounds the claim fails, see the counterexample. -/
theorem equalize_monotone (img : MandelImage)
    (hin : ∀ p ∈ img.data, p.iterations ≤ img.max_iterations)
    (hmaxb : img.max_iterations + 1 < 2 ^ 32)
    (hlen : img.data.length < 2 ^ 31)
    (hnom : nominatorOf img ≠ 0) :
    equalize_image img =
      some { img with data := img.data.map fun p =>
        { p with iterations_equalized := adjustedFn img p.iterations } } ∧
    (∀ n n' : Nat, n ≤ n' → n' ≤ img.max_iterations →
      adjustedFn img n ≤ adjustedFn img n') ∧
    (∀ n : Nat, n ≤ img.max_iterations → adjustedFn img n ≤ img.max_iterations) ∧
    adjustedFn img img.max_iterations = img.max_iterations := by
  have hcdf := (cdfFoldSt_spec (countsOf img) (img.max_iterations + 1)
    img.max_iterations (by omega)).2.2
  have hpos := countsOf_getD_nonneg img
  have hM2 : 2 ≤ img.max_iterations := by
    by_contra hcon
    have hn := nominatorOf_eq img
    rcases Nat.lt_or_ge img.max_iterations 1 with h1 | h1
    · have h0 : img.max_iterations = 0 := by omega
      rw [h0] at hn
      simp [prefixSum] at hn
      exact hnom (by rw [hn])
    · have h1' : img.max_iterations = 1 := by omega
      rw [h1'] at hn
      rw [if_pos (by omega)] at hn
      simp at hn
      exact hnom (by rw [hn])
  have hnum : nominatorOf img =
      prefixSum (countsOf img) img.max_iterations - prefixSum (countsOf img) 1 := by
    rw [nominatorOf_eq, if_pos (by omega)]
  have hden_pos : 0 < nominatorOf img := by
    have := prefixSum_mono (countsOf img) hpos (show 1 ≤ img.max_iterations by omega)
    omega
  have hm : u32sub img.max_iterations 1 = img.max_iterations - 1 :=
    u32sub_one img.max_iterations (by omega) (by omega)
  have hAmax : adjustedFn img img.max_iterations = img.max_iterations := by
    simp [adjustedFn]
  have hAle : ∀ n, n < img.max_iterations →
      adjustedFn img n ≤ img.max_iterations - 1 := by
    intro n hn
    unfold adjustedFn
    rw [if_neg (by omega), hcdf n, hcdf 0,
      if_pos hn, if_pos (by omega), hm]
    simp only [Nat.zero_add]
    refine histVal_le _ _ _ ?_ ?_ hden_pos
    · have := prefixSum_mono (countsOf img) hpos (show 1 ≤ n + 1 by omega)
      omega
    · rw [hnum]
      have := prefixSum_mono (countsOf img) hpos
        (show n + 1 ≤ img.max_iterations by omega)
      omega
  refine ⟨equalize_image_eq img hin hmaxb hlen, ?_, ?_, hAmax⟩
  · intro n n' hnn' hn'
    rcases eq_or_lt_of_le hn' with heq | hlt
    · subst heq
      by_cases hnM : n = img.max_iterations
      · rw [hnM]
      · rw [hAmax]
        exact le_trans (hAle n (by omega)) (by omega)
    · have hnM : n < img.max_iterations := by omega
      unfold adjustedFn
      rw [if_neg (by omega), if_neg (by omega),
        hcdf n, hcdf n', hcdf 0, if_pos hnM, if_pos hlt, if_pos (by omega)]
      simp only [Nat.zero_add]
      refine histVal_mono _ _ _ _ ?_ ?_ hden_pos
      · have := prefixSum_mono (countsOf img) hpos (show 1 ≤ n + 1 by omega)
        omega
      · have := prefixSum_mono (countsOf img) hpos (show n + 1 ≤ n' + 1 by omega)
        omega
  · intro n hn
    by_cases hnM : n = img.max_iterations
    · rw [hnM, hAmax]
    · exact le_trans (hAle n (by omega)) (by omega)

/-- Witness for C5 (amended) on a `1 × 3` image with budget 3 and raw
values 1, 2, 3 (`nominator = 2 ≠ 0`): monotonicity between raw values 1
and 2, and the fixed point at `max_iterations = 3`. -/
theorem equalize_monotone_witness :
    adjustedFn ⟨1, 3, 3, [⟨0, 0, 1, 0⟩, ⟨0, 1, 2, 0⟩, ⟨0, 2, 3, 0⟩]⟩ 1 ≤
      adjustedFn ⟨1, 3, 3, [⟨0, 0, 1, 0⟩, ⟨0, 1, 2, 0⟩, ⟨0, 2, 3, 0⟩]⟩ 2 ∧
    adjustedFn ⟨1, 3, 3, [⟨0, 0, 1, 0⟩, ⟨0, 1, 2, 0⟩, ⟨0, 2, 3, 0⟩]⟩ 3 = 3 := by
  have h := equalize_monotone ⟨1, 3, 3, [⟨0, 0, 1, 0⟩, ⟨0, 1, 2, 0⟩, ⟨0, 2, 3, 0⟩]⟩
    (by decide) (by norm_num) (by norm_num) (by decide)
  exact ⟨h.2.1 1 2 (by omega) (by decide), h.2.2.2⟩

/-- Counterexample to C5 as stated (no overflow bounds): at
`max_iterations = u32::MAX`, a `1 × 2` image with raw values 0 and 1
has all values in range and a nonzero `nominator`, yet
`(max_iterations + 1) as usize` wraps to 0, the histogram vector is
empty, and the first count update indexes out of bounds — the program
panics instead of computing any equalized mapping. -/
theorem equalize_monotone_counterexample :
    (∀ p ∈ (⟨1, 2, 4294967295, [⟨0, 0, 0, 0⟩, ⟨0, 1, 1, 0⟩]⟩ : MandelImage).data,
        p.iterations ≤
          (⟨1, 2, 4294967295, [⟨0, 0, 0, 0⟩, ⟨0, 1, 1, 0⟩]⟩ :
            MandelImage).max_iterations) ∧
    nominatorOf ⟨1, 2, 4294967295, [⟨0, 0, 0, 0⟩, ⟨0, 1, 1, 0⟩]⟩ ≠ 0 ∧
    equalize_image ⟨1, 2, 4294967295, [⟨0, 0, 0, 0⟩, ⟨0, 1, 1, 0⟩]⟩ = none := by
  refine ⟨by decide, ?_, by decide⟩
  have h1 : prefixSum (countsOf (⟨1, 2, 4294967295, [⟨0, 0, 0, 0⟩, ⟨0, 1, 1, 0⟩]⟩ :
      MandelImage)) 4294967295 = 2 := by
    rw [prefixSum_countsOf_filter _ 4294967295 (by decide)]
    decide
  have h2 : prefixSum (countsOf (⟨1, 2, 4294967295, [⟨0, 0, 0, 0⟩, ⟨0, 1, 1, 0⟩]⟩ :
      MandelImage)) 1 = 1 := by
    rw [prefixSum_countsOf_filter _ 1 (by decide)]
    decide
  have hM : (⟨1, 2, 4294967295, [⟨0, 0, 0, 0⟩, ⟨0, 1, 1, 0⟩]⟩ :
      MandelImage).max_iterations = 4294967295 := rfl
  rw [nominatorOf_eq, hM, h1, h2]
  decide

/-- C4 (the code lacks the guard the claim describes): on the `1 × 1`
all-in-set image with budget 5, `nominator = 0`, yet `equalize_image`
evaluates the division for every `n < max_iterations` rather than
taking any fallback path — the `0.0/0.0 = NaN` result is cast to 0
(second conjunct shows the lookup value the unguarded division
produces); the call itself does not panic (third conjunct). -/
theorem equalize_unguarded_eval :
    nominatorOf ⟨1, 1, 5, [⟨0, 0, 5, 0⟩]⟩ = 0 ∧
    histVal 0 0 4 = 0 ∧
    equalize_image ⟨1, 1, 5, [⟨0, 0, 5, 0⟩]⟩ = some ⟨1, 1, 5, [⟨0, 0, 5, 5⟩]⟩ := by
  refine ⟨by decide, rfl, by decide⟩

theorem intRangeList_length (s e : Int) : (intRangeList s e).length = (e - s).toNat := by
  rw [intRangeList, List.length_map, List.length_range]

theorem intRangeList_getElem? (s e : Int) (m : Nat) (hm : m < (e - s).toNat) :
    (intRangeList s e)[m]? = some (s + (m : Int)) := by
  rw [intRangeList, List.getElem?_map, List.getElem?_range hm]
  rfl

theorem workerOut_length (t : Transform) (w M : Nat) (r : Int × Int) :
    (workerOut t w M r).length = (r.2 - r.1).toNat * w := by
  unfold workerOut
  rw [List.length_flatMap]
  rw [show (List.length ∘ fun y : Int =>
        List.map (fun x => mandel (t.pos_to_complex (toI32 x) y) M) (List.range w)) =
      fun _ : Int => w from funext fun y => by simp [Function.comp]]
  rw [List.map_const', List.sum_replicate, intRangeList_length, smul_eq_mul, Nat.mul_comm]

theorem pixelsWF_get (l : List MandelPixel) :
    ∀ (w k : Nat), pixelsWF w k l = true →
      ∀ (j : Nat) (p : MandelPixel), l[j]? = some p →
        p.x = toI32 ((k + j) % w) ∧ p.y = toI32 ((k + j) / w) := by
  induction l with
  | nil =>
    intro w k _ j p hp
    simp at hp
  | cons q rest ih =>
    intro w k hwf j p hp
    rw [pixelsWF] at hwf
    simp only [Bool.and_eq_true, beq_iff_eq] at hwf
    obtain ⟨⟨hx, hy⟩, hrest⟩ := hwf
    match j with
    | 0 =>
      rw [List.getElem?_cons_zero] at hp
      cases hp
      exact ⟨hx, hy⟩
    | j + 1 =>
      rw [List.getElem?_cons_succ] at hp
      have := ih w (k + 1) hrest j p hp
      rwa [show k + 1 + j = k + (j + 1) by omega] at this

theorem flatMap_const_width_getElem? {α β : Type} (f : α → List β) (w : Nat)
    (hw : ∀ a, (f a).length = w) :
    ∀ (l : List α) (m : Nat), m < l.length * w →
      (l.flatMap f)[m]? = (l[m / w]?).bind fun a => (f a)[m % w]? := by
  intro l
  induction l with
  | nil =>
    intro m hm
    simp at hm
  | cons a l ih =>
    intro m hm
    have hw0 : 0 < w := by
      rcases Nat.eq_zero_or_pos w with h | h
      · rw [h, Nat.mul_zero] at hm
        omega
      · exact h
    rw [List.flatMap_cons, List.getElem?_append]
    by_cases hcase : m < w
    · rw [if_pos (by rw [hw a]; exact hcase)]
      rw [Nat.div_eq_of_lt hcase, Nat.mod_eq_of_lt hcase]
      simp
    · rw [if_neg (by rw [hw a]; omega)]
      have hm' : m - w < l.length * w := by
        have hexp : (a :: l).length * w = l.length * w + w := by
          simp
          ring
        omega
      rw [hw a, ih (m - w) hm']
      have hdiv : m / w = (m - w) / w + 1 := by
        have h1 : m = (m - w) + w := by omega
        calc m / w = ((m - w) + w) / w := by rw [← h1]
          _ = (m - w) / w + 1 := Nat.add_div_right _ hw0
      have hmod : m % w = (m - w) % w := by
        have h1 : m = (m - w) + w := by omega
        calc m % w = ((m - w) + w) % w := by rw [← h1]
          _ = (m - w) % w := Nat.add_mod_right _ w
      rw [hdiv, hmod, List.getElem?_cons_succ]

theorem workerOut_getElem? (t : Transform) (w M : Nat) (r : Int × Int) (m : Nat)
    (hm : m < (r.2 - r.1).toNat * w) :
    (workerOut t w M r)[m]? =
      some (mandel (t.pos_to_complex (toI32 (m % w)) (r.1 + ((m / w : Nat) : Int))) M) := by
  have hw0 : 0 < w := by
    rcases Nat.eq_zero_or_pos w with h | h
    · rw [h, Nat.mul_zero] at hm
      omega
    · exact h
  unfold workerOut
  rw [flatMap_const_width_getElem? _ w (fun y => by simp) (intRangeList r.1 r.2) m
    (by rw [intRangeList_length]; exact hm)]
  rw [intRangeList_getElem? _ _ _ ((Nat.div_lt_iff_lt_mul hw0).mpr hm)]
  rw [Option.some_bind, List.getElem?_map, List.getElem?_range (Nat.mod_lt m hw0)]
  rfl

theorem writeAll_spec :
    ∀ (iters : List Nat) (data : List MandelPixel) (pos : Nat),
      pos + iters.length ≤ data.length →
      ∃ d, writeAll data (pos : Int) iters = some d ∧
        d.length = data.length ∧
        ∀ k : Nat, d[k]? =
          if pos ≤ k ∧ k < pos + iters.length then
            (data[k]?).map fun p => { p with iterations := iters.getD (k - pos) 0 }
          else data[k]? := by
  intro iters
  induction iters with
  | nil =>
    intro data pos h
    refine ⟨data, rfl, rfl, ?_⟩
    intro k
    rw [if_neg (by simp only [List.length_nil]; omega)]
  | cons v rest ih =>
    intro data pos h
    have hlt : pos < data.length := by
      simp at h
      omega
    obtain ⟨d, hdw, hdlen, hdget⟩ := ih
      (data.set pos { data.get ⟨pos, hlt⟩ with iterations := v }) (pos + 1)
      (by rw [List.length_set]; simp at h ⊢; omega)
    have hlen' : (data.set pos { data.get ⟨pos, hlt⟩ with iterations := v }).length
        = data.length := List.length_set data pos _
    refine ⟨d, ?_, by rw [hdlen, hlen'], ?_⟩
    · rw [writeAll]
      rw [dif_pos (show 0 ≤ (pos : Int) ∧ ((pos : Int)).toNat < data.length by
        constructor
        · positivity
        · simpa using hlt)]
      simp only [Int.toNat_natCast]
      rw [show (pos : Int) + 1 = ((pos + 1 : Nat) : Int) by push_cast; ring]
      exact hdw
    · intro k
      rw [hdget k]
      by_cases hk : k = pos
      · subst hk
        rw [if_neg (by omega), if_pos (by simp only [List.length_cons]; omega)]
        rw [List.getElem?_set_self (by simpa using hlt)]
        rw [List.getElem?_eq_getElem hlt]
        simp only [Nat.sub_self, List.getD_cons_zero, Option.map_some, List.get_eq_getElem]
        rfl
      · rw [List.getElem?_set_ne (fun hcon => hk hcon.symm)]
        by_cases hwin : pos + 1 ≤ k ∧ k < pos + 1 + rest.length
        · rw [if_pos hwin, if_pos (by simp only [List.length_cons]; omega)]
          rw [show k - pos = (k - (pos + 1)) + 1 by omega, List.getD_cons_succ]
        · rw [if_neg hwin, if_neg (by simp only [List.length_cons]; omega)]

/-- Effect of gathering one worker's rows into the buffer: in-range
writes succeed, set every pixel of the worker's row block to its target
value, preserve already-written target values and touch nothing else. -/
theorem set_iterations_worker (t : Transform) (img : MandelImage) (d : List MandelPixel)
    (hw1 : 1 ≤ img.width) (hsize : img.width * img.height < 2 ^ 31)
    (hdlen : d.length = img.width * img.height)
    (hstable : ∀ j, d[j]? = targetAt t img j ∨ d[j]? = img.data[j]?)
    (k : Nat) (hk : k < 12) :
    ∃ d', set_iterations { img with data := d } (rowsOf img.height k)
          (workerOut t img.width img.max_iterations (rowsOf img.height k))
        = some { img with data := d' } ∧
      d'.length = d.length ∧
      (∀ j, d'[j]? = targetAt t img j ∨ d'[j]? = img.data[j]?) ∧
      (∀ j, d[j]? = targetAt t img j → d'[j]? = targetAt t img j) ∧
      (∀ j : Nat, inRowRange (rowsOf img.height k) ((j / img.width : Nat) : Int) →
        d'[j]? = targetAt t img j) := by
  set w := img.width with hwdef
  set hgt := img.height with hhdef
  have hh31 : hgt < 2 ^ 31 := by
    have : hgt ≤ w * hgt := Nat.le_mul_of_pos_left hgt (by omega)
    omega
  obtain ⟨hs0, heh⟩ := rowsOf_bounds hgt hh31 k hk
  by_cases hempty : (rowsOf hgt k).2 ≤ (rowsOf hgt k).1
  · -- empty row range: the worker sends an empty vector, nothing is written
    have hnil : workerOut t w img.max_iterations (rowsOf hgt k) = [] := by
      apply List.eq_nil_of_length_eq_zero
      rw [workerOut_length]
      have : ((rowsOf hgt k).2 - (rowsOf hgt k).1).toNat = 0 := by omega
      rw [this, Nat.zero_mul]
    refine ⟨d, ?_, rfl, hstable, fun j h => h, ?_⟩
    · rw [hnil]
      rfl
    · intro j hj
      rw [inRowRange] at hj
      omega
  · -- nonempty range [s, e): 1 ≤ height, and all index arithmetic is exact
    push_neg at hempty
    set sN := (rowsOf hgt k).1.toNat with hsN
    set eN := (rowsOf hgt k).2.toNat with heN
    have hsInt : ((sN : Nat) : Int) = (rowsOf hgt k).1 := Int.toNat_of_nonneg hs0
    have heInt : ((eN : Nat) : Int) = (rowsOf hgt k).2 :=
      Int.toNat_of_nonneg (by omega)
    have hse : sN < eN := by omega
    have hehN : eN ≤ hgt := by omega
    have hgt1 : 1 ≤ hgt := by omega
    have hw31 : w < 2 ^ 31 := by
      have : w ≤ w * hgt := Nat.le_mul_of_pos_right w (by omega)
      omega
    have hcnt : ((rowsOf hgt k).2 - (rowsOf hgt k).1).toNat = eN - sN := by omega
    have hlen_iters :
        (workerOut t w img.max_iterations (rowsOf hgt k)).length = (eN - sN) * w := by
      rw [workerOut_length, hcnt]
    have hbound : sN * w + (eN - sN) * w ≤ d.length := by
      rw [hdlen]
      have h1 : sN * w + (eN - sN) * w = eN * w := by
        have : sN ≤ eN := by omega
        rw [← Nat.add_mul]
        congr 1
        omega
      rw [h1]
      calc eN * w ≤ hgt * w := Nat.mul_le_mul_right w hehN
        _ = w * hgt := Nat.mul_comm _ _
    obtain ⟨d', hwrite, hlen', hget'⟩ :=
      writeAll_spec (workerOut t w img.max_iterations (rowsOf hgt k)) d (sN * w)
        (by rw [hlen_iters]; exact hbound)
    have hstart : i32wrap ((rowsOf hgt k).1 * toI32 w) = ((sN * w : Nat) : Int) := by
      rw [toI32_of_lt w hw31, ← hsInt]
      rw [show ((sN : Nat) : Int) * ((w : Nat) : Int) = ((sN * w : Nat) : Int) by
        push_cast; ring]
      apply i32wrap_of_range
      · have h0 : (0 : Int) ≤ ((sN * w : Nat) : Int) := by positivity
        omega
      · have h1 : sN * w < eN * w := by
          apply Nat.mul_lt_mul_right (by omega : 0 < w) |>.mpr hse
        have h2 : eN * w ≤ hgt * w := Nat.mul_le_mul_right w hehN
        have h3 : hgt * w = w * hgt := Nat.mul_comm _ _
        have : ((sN * w : Nat) : Int) < ((2 ^ 31 : Nat) : Int) := by
          exact_mod_cast by omega
        simpa using this
    -- the worker's value at offset m is the target value of index sN*w + m
    have hvals : ∀ j : Nat, sN * w ≤ j → j < sN * w + (eN - sN) * w →
        (workerOut t w img.max_iterations (rowsOf hgt k)).getD (j - sN * w) 0 =
          mandel (t.pos_to_complex (toI32 (j % w)) (toI32 (j / w)))
            img.max_iterations := by
      intro j hj1 hj2
      have hm : j - sN * w < (eN - sN) * w := by omega
      have hm' : j - sN * w < ((rowsOf hgt k).2 - (rowsOf hgt k).1).toNat * w := by
        rw [hcnt]
        exact hm
      rw [List.getD_eq_getElem?_getD, workerOut_getElem? t w img.max_iterations _ _ hm']
      have hjeq : j = sN * w + (j - sN * w) := by omega
      have hmod : (j - sN * w) % w = j % w := by
        have h := Nat.mul_add_mod w sN (j - sN * w)
        have hjeq2 : w * sN + (j - sN * w) = j := by
          have hc : w * sN = sN * w := Nat.mul_comm w sN
          omega
        rw [hjeq2] at h
        exact h.symm
      have hdivq : j / w = sN + (j - sN * w) / w := by
        calc j / w = (sN * w + (j - sN * w)) / w := by rw [← hjeq]
          _ = (w * sN + (j - sN * w)) / w := by rw [Nat.mul_comm sN w]
          _ = sN + (j - sN * w) / w := Nat.mul_add_div (by omega) sN _
      have hyeq : (rowsOf hgt k).1 + (((j - sN * w) / w : Nat) : Int) =
          toI32 (j / w) := by
        rw [← hsInt, hdivq]
        have hjw : sN + (j - sN * w) / w < 2 ^ 31 := by
          have hq : (j - sN * w) / w < eN - sN := by
            exact (Nat.div_lt_iff_lt_mul (by omega)).mpr hm
          omega
        rw [toI32_of_lt _ hjw]
        push_cast
        ring
      rw [hmod, hyeq]
      rfl
    have hwin_target : ∀ j : Nat,
        sN * w ≤ j → j < sN * w + (eN - sN) * w → d'[j]? = targetAt t img j := by
      intro j h1 h2
      rw [hget' j, if_pos ⟨h1, by rw [hlen_iters]; exact h2⟩]
      have hval := hvals j h1 h2
      rcases hstable j with hst | hst
      · rw [hst]
        unfold targetAt
        cases hdj : img.data[j]? with
        | none => rfl
        | some p =>
          simp only [Option.map_some']
          rw [hval]
      · rw [hst]
        unfold targetAt
        cases hdj : img.data[j]? with
        | none => rfl
        | some p =>
          simp only [Option.map_some']
          rw [hval]
    refine ⟨d', ?_, by rw [hlen'], ?_, ?_, ?_⟩
    · show set_iterations { img with data := d } (rowsOf hgt k)
          (workerOut t w img.max_iterations (rowsOf hgt k)) = some { img with data := d' }
      unfold set_iterations
      dsimp only
      rw [hstart, hwrite]
      rfl
    · intro j
      by_cases hwin : sN * w ≤ j ∧ j < sN * w + (eN - sN) * w
      · exact Or.inl (hwin_target j hwin.1 hwin.2)
      · rw [hget' j, if_neg (by rw [hlen_iters]; exact hwin)]
        exact hstable j
    · intro j hj
      by_cases hwin : sN * w ≤ j ∧ j < sN * w + (eN - sN) * w
      · exact hwin_target j hwin.1 hwin.2
      · rw [hget' j, if_neg (by rw [hlen_iters]; exact hwin)]
        exact hj
    · intro j hj
      rw [inRowRange] at hj
      obtain ⟨hj1, hj2⟩ := hj
      have hw0 : 0 < w := by omega
      have hr1 : sN ≤ j / w := by
        have h : ((sN : Nat) : Int) ≤ ((j / w : Nat) : Int) := by
          rw [hsInt]
          exact hj1
        exact_mod_cast h
      have hr2 : j / w < eN := by
        have h : ((j / w : Nat) : Int) < ((eN : Nat) : Int) := by
          rw [heInt]
          exact hj2
        exact_mod_cast h
      have hwin1 : sN * w ≤ j := by
        calc sN * w ≤ (j / w) * w := Nat.mul_le_mul_right w hr1
          _ ≤ j := Nat.div_mul_le_self j w
      have hwin2 : j < sN * w + (eN - sN) * w := by
        have hdm := Nat.div_add_mod j w
        have hml := Nat.mod_lt j hw0
        have hexp1 : (j / w + 1) * w = w * (j / w) + w := by ring
        have h1 : j < (j / w + 1) * w := by omega
        have h2 : (j / w + 1) * w ≤ eN * w := Nat.mul_le_mul_right w (by omega)
        have hexp2 : sN * w + (eN - sN) * w = eN * w := by
          rw [← Nat.add_mul]
          congr 1
          omega
        omega
      exact hwin_target j hwin1 hwin2

/-- Folding any sequence of valid worker gathers over the buffer: the
fold succeeds, every gathered row block holds its target value, and
previously written target values survive. -/
theorem generate_fold (t : Transform) (img : MandelImage)
    (hw1 : 1 ≤ img.width) (hsize : img.width * img.height < 2 ^ 31) :
    ∀ order : List Nat, (∀ k ∈ order, k < 12) →
    ∀ d : List MandelPixel, d.length = img.width * img.height →
      (∀ j, d[j]? = targetAt t img j ∨ d[j]? = img.data[j]?) →
      ∃ d', List.foldlM
          (fun cur k =>
            set_iterations cur (rowsOf img.height k)
              (workerOut t img.width img.max_iterations (rowsOf img.height k)))
          { img with data := d } order = some { img with data := d' } ∧
        d'.length = d.length ∧
        (∀ j, d'[j]? = targetAt t img j ∨ d'[j]? = img.data[j]?) ∧
        (∀ j, d[j]? = targetAt t img j → d'[j]? = targetAt t img j) ∧
        (∀ j : Nat,
          (∃ k ∈ order, inRowRange (rowsOf img.height k) ((j / img.width : Nat) : Int)) →
          d'[j]? = targetAt t img j) := by
  intro order
  induction order with
  | nil =>
    intro _ d hdlen hstable
    refine ⟨d, rfl, rfl, hstable, fun j h => h, ?_⟩
    rintro j ⟨k, hk, _⟩
    simp at hk
  | cons k rest ih =>
    intro horder d hdlen hstable
    obtain ⟨d₁, hstep, hlen₁, hstable₁, hpres₁, hcov₁⟩ :=
      set_iterations_worker t img d hw1 hsize hdlen hstable k
        (horder k (by simp))
    obtain ⟨d', hfold, hlen', hstable', hpres', hcov'⟩ :=
      ih (fun q hq => horder q (by simp [hq])) d₁ (by rw [hlen₁, hdlen]) hstable₁
    refine ⟨d', ?_, by rw [hlen', hlen₁], hstable', ?_, ?_⟩
    · rw [List.foldlM_cons, hstep]
      simpa using hfold
    · intro j hj
      exact hpres' j (hpres₁ j hj)
    · rintro j ⟨q, hq, hjq⟩
      rcases List.mem_cons.mp hq with rfl | hq'
      · exact hpres' j (hcov₁ j hjq)
      · exact hcov' j ⟨q, hq', hjq⟩

/-- When every worker's result vector is empty, the gather loop leaves
the image untouched. -/
theorem generate_thread_nil_workers (t : Transform) (img : MandelImage) :
    ∀ order : List Nat,
      (∀ k ∈ order, workerOut t img.width img.max_iterations (rowsOf img.height k) = []) →
      generate_image_thread t img order = some img := by
  intro order
  induction order with
  | nil => intro _; rfl
  | cons k rest ih =>
    intro h
    have h1 : set_iterations img (rowsOf img.height k)
        (workerOut t img.width img.max_iterations (rowsOf img.height k)) = some img := by
      rw [h k (by simp)]
      rfl
    unfold generate_image_thread
    simp only [List.foldlM_cons]
    rw [h1]
    simpa [generate_image_thread] using ih fun q hq => h q (by simp [hq])

/-- C1 (amended to images with fewer than `2^31` pixels, where the
`u32 → i32` casts and the `i32` row-offset arithmetic of the generators
are exact): for every transform, every image buffer laid out by
`MandelImage::new` (row-major `x`/`y` fields, `width * height` pixels)
and every arrival order of the twelve worker results, the multithreaded
generator produces exactly the image the single-threaded generator
produces — bit-identical `iterations` at every pixel, all other fields
untouched. -/
theorem generate_image_thread_eq_serial (t : Transform) (img : MandelImage)
    (order : List Nat)
    (hwf : pixelsWF img.width 0 img.data = true)
    (hlen : img.data.length = img.width * img.height)
    (hsize : img.width * img.height < 2 ^ 31)
    (hperm : order.Perm (List.range 12)) :
    generate_image_thread t img order = some (_generate_image t img) := by
  by_cases hdeg : img.width * img.height = 0
  · -- no pixels at all: both generators leave the (empty) buffer alone
    have hdata : img.data = [] := List.eq_nil_of_length_eq_zero (by omega)
    have hser : _generate_image t img = img := by
      unfold _generate_image
      rw [hdata]
      cases img
      simp_all
    rw [hser]
    apply generate_thread_nil_workers
    intro k hk
    apply List.eq_nil_of_length_eq_zero
    rw [workerOut_length]
    rcases Nat.eq_zero_or_pos img.width with hw | hw
    · rw [hw, Nat.mul_zero]
    · have hh0 : img.height = 0 := by
        rcases Nat.mul_eq_zero.mp hdeg with h | h
        · omega
        · exact h
      have hk12 : k < 12 := List.mem_range.mp (hperm.subset hk)
      obtain ⟨hb1, hb2⟩ := rowsOf_bounds img.height (by rw [hh0]; norm_num) k hk12
      have hz : ((rowsOf img.height k).2 - (rowsOf img.height k).1).toNat = 0 := by
        omega
      rw [hz, Nat.zero_mul]
  · -- at least one pixel
    have hw1 : 1 ≤ img.width := by
      rcases Nat.eq_zero_or_pos img.width with h | h
      · rw [h] at hdeg
        simp at hdeg
      · exact h
    have hh1 : 1 ≤ img.height := by
      rcases Nat.eq_zero_or_pos img.height with h | h
      · rw [h] at hdeg
        simp at hdeg
      · exact h
    have hh31 : img.height < 2 ^ 31 := by
      have : img.height ≤ img.width * img.height :=
        Nat.le_mul_of_pos_left img.height (by omega)
      omega
    obtain ⟨d', hfold, hlen', _, _, hcov⟩ :=
      generate_fold t img hw1 hsize order
        (fun k hk => List.mem_range.mp (hperm.subset hk)) img.data hlen
        (fun j => Or.inr rfl)
    rw [show ({ img with data := img.data } : MandelImage) = img from by cases img; rfl]
      at hfold
    unfold generate_image_thread
    rw [hfold]
    congr 1
    unfold _generate_image
    congr 1
    apply List.ext_getElem?
    intro j
    by_cases hj : j < img.width * img.height
    · have hrow : j / img.width < img.height := by
        apply (Nat.div_lt_iff_lt_mul (by omega)).mpr
        have hc := Nat.mul_comm img.width img.height
        omega
      have hcovj : ∃ k ∈ order,
          inRowRange (rowsOf img.height k) ((j / img.width : Nat) : Int) := by
        obtain ⟨q, hq12, hqr⟩ := rowsOf_cover_exists img.height hh31
          ((j / img.width : Nat) : Int) (by positivity) (by exact_mod_cast hrow)
        exact ⟨q, hperm.mem_iff.mpr (List.mem_range.mpr hq12), hqr⟩
      rw [hcov j hcovj, List.getElem?_map]
      unfold targetAt
      cases hdj : img.data[j]? with
      | none => rfl
      | some p =>
        simp only [Option.map_some']
        obtain ⟨hx, hy⟩ := pixelsWF_get img.data img.width 0 hwf j p hdj
        simp only [Nat.zero_add] at hx hy
        rw [hx, hy]
    · have h1 : d'[j]? = none := List.getElem?_eq_none (by rw [hlen', hlen]; omega)
      have h2 : (img.data.map fun p =>
          { p with iterations := mandel (t.pos_to_complex p.x p.y) img.max_iterations })[j]?
          = none := List.getElem?_eq_none (by rw [List.length_map, hlen]; omega)
      rw [h1, h2]

/-- Witness for C1 (amended) on a concrete `2 × 3` image with budget 2:
gathering the twelve worker results in reverse arrival order reproduces
the single-threaded image exactly. -/
theorem generate_image_thread_eq_serial_witness :
    generate_image_thread (Transform.new (2, 3)) ⟨2, 3, 2, mkData 2 3⟩
        (List.range 12).reverse
      = some (_generate_image (Transform.new (2, 3)) ⟨2, 3, 2, mkData 2 3⟩) :=
  generate_image_thread_eq_serial (Transform.new (2, 3)) ⟨2, 3, 2, mkData 2 3⟩
    (List.range 12).reverse (by decide) (by decide) (by decide)
    (List.reverse_perm (List.range 12))

/-- Head of a freshly constructed pixel list: the pixel at `(0, 0)`. -/
theorem mkData_head (w h : Nat) (hw : 0 < w) (hh : 0 < h) :
    (mkData w h).head? = some (MandelPixel.new 0 0) := by
  unfold mkData
  obtain ⟨h', rfl⟩ : ∃ h', h = h' + 1 := ⟨h - 1, by omega⟩
  rw [List.range_succ_eq_map, List.flatMap_cons]
  obtain ⟨w', rfl⟩ : ∃ w', w = w' + 1 := ⟨w - 1, by omega⟩
  rw [List.range_succ_eq_map, List.map_cons, List.cons_append, List.head?_cons]
  rw [show toI32 0 = 0 from by decide]

theorem MandelImage_new_data (w h m : Nat) : (MandelImage.new w h m).data = mkData w h :=
  rfl

theorem MandelImage_new_height (w h m : Nat) : (MandelImage.new w h m).height = h := rfl

theorem MandelImage_new_width (w h m : Nat) : (MandelImage.new w h m).width = w := rfl

theorem MandelImage_new_max (w h m : Nat) :
    (MandelImage.new w h m).max_iterations = m := rfl

theorem serial_head (t : Transform) (img : MandelImage) :
    (_generate_image t img).data.head? = img.data.head?.map fun p =>
      { p with iterations := mandel (t.pos_to_complex p.x p.y) img.max_iterations } := by
  unfold _generate_image
  exact List.head?_map _ _

/-- Counterexample to C1 as stated (for all image dimensions): on the
`1 × 2^31` image (`height as i32` wraps to `-2^31`), every row range is
empty, so the multithreaded generator returns the image unchanged
(pixel 0 keeps `iterations = 0`), while the single-threaded generator
computes `iterations = 1` for pixel 0 — the two results differ at every
escaping pixel. -/
theorem generate_thread_counterexample :
    generate_image_thread (Transform.new (1, 2 ^ 31)) (MandelImage.new 1 (2 ^ 31) 5)
        (List.range 12) = some (MandelImage.new 1 (2 ^ 31) 5) ∧
    ((_generate_image (Transform.new (1, 2 ^ 31))
        (MandelImage.new 1 (2 ^ 31) 5)).data.head?.map fun p => p.iterations)
      = some 1 ∧
    ((MandelImage.new 1 (2 ^ 31) 5).data.head?.map fun p => p.iterations) = some 0 := by
  have hhead : (MandelImage.new 1 (2 ^ 31) 5).data.head? = some (MandelPixel.new 0 0) := by
    rw [MandelImage_new_data]
    exact mkData_head 1 (2 ^ 31) (by norm_num) (by norm_num)
  refine ⟨?_, ?_, ?_⟩
  · apply generate_thread_nil_workers
    intro k hk
    apply List.eq_nil_of_length_eq_zero
    rw [workerOut_length]
    have hk12 : k < 12 := List.mem_range.mp hk
    rw [MandelImage_new_height, MandelImage_new_width]
    interval_cases k <;> decide
  · have hc : (Transform.new (1, 2 ^ 31)).pos_to_complex 0 0 =
        ⟨-(5 / 2 : ℚ), (26843545600 / 7 : ℚ)⟩ := by
      simp only [Transform.new, Transform.reset, Transform.pos_to_complex]
      norm_num
    have hns : in_set ⟨-(5 / 2 : ℚ), (26843545600 / 7 : ℚ)⟩ = false := by
      unfold in_set
      norm_num
    have hm : mandel ⟨-(5 / 2 : ℚ), (26843545600 / 7 : ℚ)⟩ 5 = 1 := by
      unfold mandel
      rw [hns]
      simp only [Bool.false_eq_true, if_false]
      have h0 : (⟨0, 0⟩ : Cx) = orbit ⟨-(5 / 2 : ℚ), (26843545600 / 7 : ℚ)⟩ 0 := rfl
      rw [h0]
      apply mandelGo_first_escape _ 5 1 (by omega) ?_ ?_ 5 0 (by omega) (by omega)
      · show (4 : ℚ) ≤ (orbit ⟨-(5 / 2 : ℚ), (26843545600 / 7 : ℚ)⟩ 1).normSq
        simp only [orbit, cx_mul_def, cx_add_def, Cx.normSq]
        norm_num
      · intro n hn
        interval_cases n
        simp only [orbit, Cx.normSq]
        norm_num
    rw [serial_head, hhead, MandelImage_new_max]
    simp only [Option.map_some', MandelPixel.new]
    rw [hc, hm]
  · rw [hhead]
    simp [MandelPixel.new]
